import Mathlib

/-!
# Sliding-window rate limiter (`ratelimiter.go`)

A shallow embedding of the Go type `RateLimiter` and of its methods.

* The struct is a Lean structure with the fields of the source (the mutex is
  left out: every method holds it for its whole body, so the methods are
  modelled as atomic state transformers; `end` is a Lean keyword and is
  spelled `end_`).
* `int` and `int64` values are `Int`.  The one subtraction that can leave the
  64-bit range, `t - r.deltaT` in `purge`, is wrapped explicitly
  (`wrapInt64`).  The index sums `r.end + 1` and `r.end + r.len` are bounded by
  twice the length of the slice in every well-formed state.
* A run-time panic (slice index out of range, integer division by zero,
  `make` with a negative length) is the result `none`.
* The clock reading `time.Now().UnixNano()` is an explicit argument of the
  methods that read the clock.
-/

namespace Ratelimiter

/-! ## Go primitives -/

/-- Two's-complement wrap-around of an integer into the `int64` range. -/
def wrapInt64 (x : Int) : Int := (x + 2 ^ 63) % 2 ^ 64 - 2 ^ 63

/-- Go's `a % b` on integers: truncated remainder, panics when `b = 0`. -/
def goMod (a b : Int) : Option Int :=
  if b = 0 then none else some (Int.tmod a b)

/-- Slice read `l[i]`: panics when the index is out of range. -/
def sliceGet (l : List Int) (i : Int) : Option Int :=
  if 0 ≤ i then l[i.toNat]? else none

/-- Slice write `l[i] = v`: panics when the index is out of range. -/
def sliceSet (l : List Int) (i : Int) (v : Int) : Option (List Int) :=
  if 0 ≤ i ∧ i < l.length then some (l.set i.toNat v) else none

/-! ## The limiter -/

/-- The struct `RateLimiter` (without its mutex). -/
structure RateLimiter where
  /-- UnixNano time stamp circular FIFO queue. -/
  log : List Int
  /-- End of queue holding the oldest time stamp. -/
  end_ : Int
  /-- Number of time stamps in the queue. -/
  len : Int
  /-- Number of events accepted per deltaT. -/
  cap : Int
  /-- Time frame in nano seconds. -/
  deltaT : Int
deriving DecidableEq, Repr

/-- The constructor `New(maxN, deltaT)`; `make([]int64, maxN)` panics for a
negative `maxN`. -/
def New (maxN : Int) (deltaT : Int) : Option RateLimiter :=
  if maxN < 0 then none
  else some { log := List.replicate maxN.toNat 0, end_ := 0, len := 0, cap := maxN,
              deltaT := deltaT }

/-- The value of `oldest := t - r.deltaT` in `purge`, an `int64` subtraction. -/
def oldest (t deltaT : Int) : Int := wrapInt64 (t - deltaT)

/-- The loop of `purge`: `for r.len > 0 && r.log[r.end] <= oldest { ... }`.
Every iteration decrements `r.len`, so `r.len` iterations suffice; the first
argument counts the iterations still available. -/
def purgeLoop (o : Int) : Nat → RateLimiter → Option RateLimiter
  | 0, r => some r
  | fuel + 1, r =>
    if r.len > 0 then
      match sliceGet r.log r.end_ with
      | none => none
      | some x =>
        if x ≤ o then
          match goMod (r.end_ + 1) r.log.length with
          | none => none
          | some e => purgeLoop o fuel { r with len := r.len - 1, end_ := e }
        else some r
    else some r

/-- The method `purge(t)`. -/
def purge (t : Int) (r : RateLimiter) : Option RateLimiter :=
  purgeLoop (oldest t r.deltaT) r.len.toNat r

/-- The method `accept(t)`: the returned boolean and the state left behind. -/
def accept (t : Int) (r : RateLimiter) : Option (Bool × RateLimiter) :=
  match purge t r with
  | none => none
  | some r1 =>
    if r1.len ≥ r1.cap then some (false, r1)
    else
      match goMod (r1.end_ + r1.len) r1.log.length with
      | none => none
      | some j =>
        match sliceSet r1.log j t with
        | none => none
        | some l => some (true, { r1 with log := l, len := r1.len + 1 })

/-- The method `Len()`: the result and the (unchanged) state. -/
def Len (r : RateLimiter) : Int × RateLimiter := (r.len, r)

/-- The method `Reset()`. -/
def Reset (r : RateLimiter) : RateLimiter := { r with len := 0 }

/-- The method `Accept()`, at the clock reading `now`. -/
def Accept (now : Int) (r : RateLimiter) : Option (Bool × RateLimiter) :=
  accept now r

/-- The method `Reject()`, at the clock reading `now`. -/
def Reject (now : Int) (r : RateLimiter) : Option (Bool × RateLimiter) :=
  match accept now r with
  | none => none
  | some (b, r1) => some (!b, r1)

/-- The method `Purge()`, at the clock reading `now`. -/
def Purge (now : Int) (r : RateLimiter) : Option RateLimiter :=
  purge now r

/-- The method `N()`: the result and the (unchanged) state. -/
def N (r : RateLimiter) : Int × RateLimiter := (r.cap, r)

/-- The method `SetN(cap)`. -/
def SetN (cap : Int) (r : RateLimiter) : RateLimiter :=
  if cap < 0 then { r with cap := 0 }
  else if cap > r.log.length then { r with cap := r.log.length }
  else { r with cap := cap }

/-- The method `ResetN()`. -/
def ResetN (r : RateLimiter) : RateLimiter := { r with cap := r.log.length }

/-! ## Well-formed states and the queue they represent -/

/-- Well-formed state: the count and the limit lie between 0 and the length
of the buffer, and `end` is an index of the buffer when the buffer is not
empty. -/
def WF (r : RateLimiter) : Prop :=
  0 ≤ r.len ∧ r.len ≤ r.log.length ∧ 0 ≤ r.cap ∧ r.cap ≤ r.log.length ∧
    (0 < r.log.length → 0 ≤ r.end_ ∧ r.end_ < r.log.length)

instance instDecidableWF (r : RateLimiter) : Decidable (WF r) := by
  unfold WF; infer_instance

/-- The live entries, oldest first: `log[(end + i) % len(log)]` for
`i = 0 .. len - 1`. -/
def queue (r : RateLimiter) : List Int :=
  (List.range r.len.toNat).map fun i => r.log.getD ((r.end_.toNat + i) % r.log.length) 0

/-- The subtraction `t - deltaT` stays inside the `int64` range. -/
def NoOverflow (t deltaT : Int) : Prop :=
  -(2 ^ 63) ≤ t - deltaT ∧ t - deltaT < 2 ^ 63

instance instDecidableNoOverflow (t deltaT : Int) : Decidable (NoOverflow t deltaT) := by
  unfold NoOverflow; infer_instance

/-- The abstract FIFO admission step on a list of time stamps, oldest first:
drop the longest run of leading entries that are `≤ thr`; reject when the
rest already holds `cap` entries or more, otherwise append `t`. -/
def acceptSpec (thr cap t : Int) (q : List Int) : Bool × List Int :=
  let q1 := q.dropWhile (fun x => decide (x ≤ thr))
  if (q1.length : Int) ≥ cap then (false, q1) else (true, q1 ++ [t])

/-- `Accept()` called at each of the given clock readings in turn: the
returned booleans and the final state. -/
def acceptAll : List Int → RateLimiter → Option (List Bool × RateLimiter)
  | [], r => some ([], r)
  | t :: ts, r =>
    match Accept t r with
    | none => none
    | some (b, r1) =>
      match acceptAll ts r1 with
      | none => none
      | some (bs, r2) => some (b :: bs, r2)

/-- A call of a public method; the methods that read the clock carry the
clock reading. -/
inductive Op where
  | Accept (now : Int)
  | Reject (now : Int)
  | Purge (now : Int)
  | Len
  | N
  | SetN (cap : Int)
  | ResetN
  | Reset
deriving DecidableEq, Repr

/-- One public call on a limiter paired with the list of the time stamps
admitted since construction or the last `Reset` (oldest first). -/
def stepOp (o : Op) (s : RateLimiter × List Int) : Option (RateLimiter × List Int) :=
  match o with
  | Op.Accept now =>
    match Accept now s.1 with
    | none => none
    | some (b, r1) => some (r1, if b then s.2 ++ [now] else s.2)
  | Op.Reject now =>
    match Reject now s.1 with
    | none => none
    | some (b, r1) => some (r1, if b then s.2 else s.2 ++ [now])
  | Op.Purge now =>
    match Purge now s.1 with
    | none => none
    | some r1 => some (r1, s.2)
  | Op.Len => some ((Len s.1).2, s.2)
  | Op.N => some ((N s.1).2, s.2)
  | Op.SetN cap => some (SetN cap s.1, s.2)
  | Op.ResetN => some (ResetN s.1, s.2)
  | Op.Reset => some (Reset s.1, [])

/-- A sequence of public calls, executed in order. -/
def run : List Op → RateLimiter × List Int → Option (RateLimiter × List Int)
  | [], s => some s
  | o :: os, s =>
    match stepOp o s with
    | none => none
    | some s1 => run os s1

/-- The clock readings of a sequence of calls, in order. -/
def clockReadings : List Op → List Int
  | [] => []
  | Op.Accept now :: os => now :: clockReadings os
  | Op.Reject now :: os => now :: clockReadings os
  | Op.Purge now :: os => now :: clockReadings os
  | _ :: os => clockReadings os

/-- Number of time stamps of `l` in the half-open window `(lo, hi]`. -/
def countWindow (l : List Int) (lo hi : Int) : Nat :=
  l.countP (fun x => decide (lo < x ∧ x ≤ hi))

/-- Number of time stamps of `l` that are `> lo`. -/
def countAfter (l : List Int) (lo : Int) : Nat :=
  l.countP (fun x => decide (lo < x))

/-- Invariant of a run at non-decreasing clock readings, none of them later
than `lo`: the state is well formed, the window and the buffer length are
those of the construction, the queue is the tail of the list of admitted time
stamps, every admitted time stamp that has left the queue is `≤ lo - deltaT`,
and the admitted time stamps are non-decreasing and `≤ lo`. -/
def Inv (maxN deltaT lo : Int) (s : RateLimiter × List Int) : Prop :=
  WF s.1 ∧ s.1.deltaT = deltaT ∧ (s.1.log.length : Int) = maxN ∧
    (∃ d, s.2 = d ++ queue s.1 ∧ ∀ x ∈ d, x ≤ lo - deltaT) ∧
    (∀ x ∈ s.2, x ≤ lo) ∧ s.2.Pairwise (· ≤ ·)

/-- The value `x` clamped into `[lo, hi]`: `lo` when `x < lo`, `hi` when
`x > hi`, and `x` otherwise. -/
def clamp (x lo hi : Int) : Int :=
  if x < lo then lo else if x > hi then hi else x

/-- Invariant of a run at non-decreasing clock readings, none of them later
than `lo`, whatever the window: the state is well formed, the queue is the
tail of the list of admitted time stamps, and the admitted time stamps are
non-decreasing and `≤ lo`. -/
def Chron (lo : Int) (s : RateLimiter × List Int) : Prop :=
  WF s.1 ∧ (∃ d, s.2 = d ++ queue s.1) ∧ (∀ x ∈ s.2, x ≤ lo) ∧ s.2.Pairwise (· ≤ ·)

/-- The loop of `purge` instrumented: besides the final state it returns the
number of executions of the loop body and the indices `r.end` at which the
loop condition read the buffer, in order. -/
def purgeTrace (o : Int) : Nat → RateLimiter → Option (RateLimiter × Nat × List Int)
  | 0, r => some (r, 0, [])
  | fuel + 1, r =>
    if r.len > 0 then
      match sliceGet r.log r.end_ with
      | none => none
      | some x =>
        if x ≤ o then
          match goMod (r.end_ + 1) r.log.length with
          | none => none
          | some e =>
            match purgeTrace o fuel { r with len := r.len - 1, end_ := e } with
            | none => none
            | some (r1, k, idx) => some (r1, k + 1, r.end_ :: idx)
        else some (r, 0, [r.end_])
    else some (r, 0, [])

/-- One public call on a limiter paired with the list of the time stamps
admitted since construction: as `stepOp`, but `Reset` keeps the list. -/
def stepOpAll (o : Op) (s : RateLimiter × List Int) : Option (RateLimiter × List Int) :=
  match o with
  | Op.Reset => some (Reset s.1, s.2)
  | _ => stepOp o s

/-- A sequence of public calls, executed in order, with the list of the time
stamps admitted since construction. -/
def runAll : List Op → RateLimiter × List Int → Option (RateLimiter × List Int)
  | [], s => some s
  | o :: os, s =>
    match stepOpAll o s with
    | none => none
    | some s1 => runAll os s1

/-! ## Circular-buffer lemmas -/

theorem queue_length (r : RateLimiter) : (queue r).length = r.len.toNat := by
  simp [queue]

theorem toNat_succ_emod (e : Int) (n : Nat) (he : 0 ≤ e) :
    ((e + 1) % (n : Int)).toNat = (e.toNat + 1) % n := by
  obtain ⟨a, rfl⟩ := Int.eq_ofNat_of_zero_le he
  have : ((a : Int) + 1) % (n : Int) = (((a + 1) % n : Nat) : Int) := by push_cast; rfl
  rw [this]; exact Int.toNat_ofNat _

theorem toNat_add_emod (e l : Int) (n : Nat) (he : 0 ≤ e) (hl : 0 ≤ l) :
    ((e + l) % (n : Int)).toNat = (e.toNat + l.toNat) % n := by
  obtain ⟨a, rfl⟩ := Int.eq_ofNat_of_zero_le he
  obtain ⟨b, rfl⟩ := Int.eq_ofNat_of_zero_le hl
  have : ((a : Int) + b) % (n : Int) = (((a + b) % n : Nat) : Int) := by push_cast; rfl
  rw [this]; exact Int.toNat_ofNat _

theorem queue_pop (r : RateLimiter) (h : WF r) (hl : 0 < r.len) :
    ∃ x, sliceGet r.log r.end_ = some x ∧
      goMod (r.end_ + 1) r.log.length = some ((r.end_ + 1) % r.log.length) ∧
      WF { r with len := r.len - 1, end_ := (r.end_ + 1) % r.log.length } ∧
      queue r = x :: queue { r with len := r.len - 1, end_ := (r.end_ + 1) % r.log.length } := by
  obtain ⟨h0, h1, h2, h3, h4⟩ := h
  have hn : (0 : Int) < r.log.length := by omega
  obtain ⟨he0, he1⟩ := h4 (by omega)
  have hlt : r.end_.toNat < r.log.length := by omega
  refine ⟨r.log[r.end_.toNat], ?_, ?_, ?_, ?_⟩
  · simp [sliceGet, he0, List.getElem?_eq_getElem hlt]
  · have hne : (r.log.length : Int) ≠ 0 := by omega
    simp only [goMod, hne, if_false]
    rw [Int.tmod_eq_emod (by omega) (by omega)]
  · refine ⟨by simp only; omega, by simp only; omega, h2, h3, fun _ => ⟨?_, ?_⟩⟩
    · exact Int.emod_nonneg _ (by omega)
    · exact Int.emod_lt_of_pos _ hn
  · obtain ⟨k, hk⟩ : ∃ k : Nat, r.len.toNat = k + 1 := ⟨r.len.toNat - 1, by omega⟩
    have hk2 : (r.len - 1).toNat = k := by omega
    simp only [queue, hk, hk2, toNat_succ_emod _ _ he0]
    rw [List.range_succ_eq_map, List.map_cons, List.map_map]
    congr 1
    · simp [Nat.mod_eq_of_lt hlt, List.getElem?_eq_getElem hlt]
    · apply List.map_congr_left
      intro i _
      simp only [Function.comp]
      congr 1
      rw [Nat.mod_add_mod]; congr 1; omega


theorem end_emod_self (r : RateLimiter) (h : WF r) :
    r.end_ = (r.end_ + (r.len - r.len)) % r.log.length := by
  rw [sub_self, add_zero]
  rcases Nat.eq_zero_or_pos r.log.length with h0 | h0
  · rw [h0]; simp
  · obtain ⟨a, b⟩ := h.2.2.2.2 h0
    exact (Int.emod_eq_of_lt a b).symm

theorem purgeLoop_spec (o : Int) : ∀ (k : Nat) (r : RateLimiter), WF r → r.len.toNat ≤ k →
    ∃ r1, purgeLoop o k r = some r1 ∧ WF r1 ∧
      queue r1 = (queue r).dropWhile (fun x => decide (x ≤ o)) ∧
      r1.log = r.log ∧ r1.cap = r.cap ∧ r1.deltaT = r.deltaT ∧
      r1.end_ = (r.end_ + (r.len - r1.len)) % r.log.length ∧ r1.len ≤ r.len := by
  intro k
  induction k with
  | zero =>
    intro r h hk
    have hq : queue r = [] := by
      apply List.eq_nil_of_length_eq_zero; rw [queue_length]; omega
    exact ⟨r, rfl, h, by simp [hq], rfl, rfl, rfl, end_emod_self r h, le_refl _⟩
  | succ k ih =>
    intro r h hk
    by_cases hl : 0 < r.len
    · obtain ⟨x, hx, hm, hwf, hq⟩ := queue_pop r h hl
      by_cases hxo : x ≤ o
      · obtain ⟨r1, e1, w1, q1, l1, c1, d1, n1, m1⟩ :=
          ih { r with len := r.len - 1, end_ := (r.end_ + 1) % r.log.length } hwf
            (by simp only; omega)
        refine ⟨r1, ?_, w1, ?_, l1, c1, d1, ?_, ?_⟩
        · simp only [purgeLoop, gt_iff_lt, hl, if_true, hx, hxo, hm]
          exact e1
        · rw [q1, hq, List.dropWhile_cons_of_pos (by simpa using hxo)]
        · rw [n1]
          simp only
          rw [Int.emod_add_emod]
          congr 1; ring
        · simp only at m1; omega
      · refine ⟨r, ?_, h, ?_, rfl, rfl, rfl, end_emod_self r h, le_refl _⟩
        · simp only [purgeLoop, gt_iff_lt, hl, if_true, hx, hxo, if_false]
        · rw [hq, List.dropWhile_cons_of_neg (by simpa using hxo), ← hq]
    · have hq : queue r = [] := by
        apply List.eq_nil_of_length_eq_zero; rw [queue_length]; omega
      refine ⟨r, ?_, h, by simp [hq], rfl, rfl, rfl, end_emod_self r h, le_refl _⟩
      simp only [purgeLoop, gt_iff_lt, hl, if_false]

theorem purgeLoop_fuel (o : Int) : ∀ (k : Nat) (r : RateLimiter), r.len.toNat ≤ k →
    purgeLoop o k r = purgeLoop o r.len.toNat r := by
  intro k
  induction k with
  | zero =>
    intro r hk
    have : r.len.toNat = 0 := by omega
    rw [this]
  | succ k ih =>
    intro r hk
    by_cases hl : 0 < r.len
    · obtain ⟨m, hm⟩ : ∃ m : Nat, r.len.toNat = m + 1 := ⟨r.len.toNat - 1, by omega⟩
      rw [hm]
      simp only [purgeLoop, gt_iff_lt, hl, if_true]
      cases sliceGet r.log r.end_ with
      | none => rfl
      | some x =>
        simp only
        split
        · cases goMod (r.end_ + 1) r.log.length with
          | none => rfl
          | some e =>
            simp only
            have h1 := ih { r with len := r.len - 1, end_ := e } (by simp only; omega)
            have h2 : (r.len - 1).toNat = m := by omega
            simp only [h2] at h1
            exact h1
        · rfl
    · have : r.len.toNat = 0 := by omega
      rw [this]
      simp only [purgeLoop, gt_iff_lt, hl, if_false]

theorem purge_spec (t : Int) (r : RateLimiter) (h : WF r) :
    ∃ r1, purge t r = some r1 ∧ WF r1 ∧
      queue r1 = (queue r).dropWhile (fun x => decide (x ≤ oldest t r.deltaT)) ∧
      r1.log = r.log ∧ r1.cap = r.cap ∧ r1.deltaT = r.deltaT ∧
      r1.end_ = (r.end_ + (r.len - r1.len)) % r.log.length ∧ r1.len ≤ r.len :=
  purgeLoop_spec _ _ r h (le_refl _)

theorem mod_add_inj (e i k n : Nat) (hik : i < k) (hk : k < n) :
    (e + i) % n ≠ (e + k) % n := by
  intro hEq
  have h1 : ((e + k) - (e + i)) % n = 0 := Nat.sub_mod_eq_zero_of_mod_eq hEq.symm
  have h2 : (e + k) - (e + i) = k - i := by omega
  rw [h2, Nat.mod_eq_of_lt (by omega)] at h1
  omega

theorem queue_push (r : RateLimiter) (t : Int) (h : WF r) (hl : r.len < r.log.length) :
    ∃ l, goMod (r.end_ + r.len) r.log.length = some ((r.end_ + r.len) % r.log.length) ∧
      sliceSet r.log ((r.end_ + r.len) % r.log.length) t = some l ∧
      l.length = r.log.length ∧
      queue { r with log := l, len := r.len + 1 } = queue r ++ [t] := by
  obtain ⟨h0, h1, h2, h3, h4⟩ := h
  have hn : (0 : Int) < r.log.length := by omega
  obtain ⟨he0, he1⟩ := h4 (by omega)
  have hi0 : 0 ≤ (r.end_ + r.len) % (r.log.length : Int) := Int.emod_nonneg _ (by omega)
  have hi1 : (r.end_ + r.len) % (r.log.length : Int) < r.log.length := Int.emod_lt_of_pos _ hn
  refine ⟨r.log.set ((r.end_ + r.len) % (r.log.length : Int)).toNat t, ?_, ?_, by simp, ?_⟩
  · have hne : (r.log.length : Int) ≠ 0 := by omega
    simp only [goMod, hne, if_false]
    rw [Int.tmod_eq_emod (by omega) (by omega)]
  · simp [sliceSet, hi0, hi1]
  · have hk2 : (r.len + 1).toNat = r.len.toNat + 1 := by omega
    have hkn : r.len.toNat < r.log.length := by omega
    simp only [queue, hk2, toNat_add_emod _ _ _ he0 h0, List.length_set]
    rw [List.range_succ, List.map_append, List.map_singleton]
    congr 1
    · apply List.map_congr_left
      intro i hi
      rw [List.mem_range] at hi
      simp only [List.getD_eq_getElem?_getD]
      rw [List.getElem?_set_ne (mod_add_inj _ _ _ _ hi hkn).symm]
    · have hlt : (r.end_.toNat + r.len.toNat) % r.log.length < r.log.length :=
        Nat.mod_lt _ (by omega)
      simp [hlt]

theorem queue_length_int (r : RateLimiter) (h : WF r) : ((queue r).length : Int) = r.len := by
  rw [queue_length]; exact Int.toNat_of_nonneg h.1

theorem oldest_eq_sub (t deltaT : Int) (h : NoOverflow t deltaT) :
    oldest t deltaT = t - deltaT := by
  obtain ⟨h1, h2⟩ := h
  unfold oldest wrapInt64
  rw [Int.emod_eq_of_lt (by omega) (by omega)]
  omega

theorem accept_spec (t : Int) (r : RateLimiter) (h : WF r) :
    ∃ b r1, accept t r = some (b, r1) ∧ WF r1 ∧
      (b, queue r1) = acceptSpec (oldest t r.deltaT) r.cap t (queue r) ∧
      r1.cap = r.cap ∧ r1.deltaT = r.deltaT ∧ r1.log.length = r.log.length := by
  obtain ⟨r1, e1, w1, q1, l1, c1, d1, -, -⟩ := purge_spec t r h
  have hlen := queue_length_int r1 w1
  by_cases hc : r1.len ≥ r1.cap
  · refine ⟨false, r1, ?_, w1, ?_, c1, d1, by rw [l1]⟩
    · simp only [accept, e1, hc, if_true]
    · have : ((List.dropWhile (fun x => decide (x ≤ oldest t r.deltaT)) (queue r)).length : Int)
          ≥ r.cap := by rw [← q1, hlen, ← c1]; exact hc
      simp only [acceptSpec, this, if_true, q1]
  · have hlt : r1.len < r1.log.length := by
      have := w1.2.2.2.1; omega
    obtain ⟨l, g1, g2, g3, g4⟩ := queue_push r1 t w1 hlt
    refine ⟨true, { r1 with log := l, len := r1.len + 1 }, ?_, ?_, ?_, c1, d1, by simp only; rw [g3, l1]⟩
    · simp only [accept, e1, hc, if_false, g1, g2]
    · obtain ⟨a0, a1, a2, a3, a4⟩ := w1
      refine ⟨by simp only; omega, by simp only; omega, a2, by simp only; omega, ?_⟩
      simp only [g3]; exact a4
    · have : ¬ ((List.dropWhile (fun x => decide (x ≤ oldest t r.deltaT)) (queue r)).length : Int)
          ≥ r.cap := by rw [← q1, hlen, ← c1]; exact hc
      simp only [acceptSpec, this, if_false, g4, q1]

theorem purgeLoop_noop (o : Int) (k : Nat) (r : RateLimiter) (h : WF r)
    (hq : ∀ x ∈ queue r, o < x) : purgeLoop o k r = some r := by
  cases k with
  | zero => rfl
  | succ k =>
    by_cases hl : 0 < r.len
    · obtain ⟨x, hx, -, -, hqe⟩ := queue_pop r h hl
      have hxo : ¬ x ≤ o := by
        have := hq x (by rw [hqe]; exact List.mem_cons_self _ _)
        omega
      simp only [purgeLoop, gt_iff_lt, hl, if_true, hx, hxo, if_false]
    · simp only [purgeLoop, gt_iff_lt, hl, if_false]

theorem purge_noop (t : Int) (r : RateLimiter) (h : WF r)
    (hq : ∀ x ∈ queue r, oldest t r.deltaT < x) : purge t r = some r :=
  purgeLoop_noop _ _ r h hq

theorem dropWhile_eq_nil_of_all {p : Int → Bool} {l : List Int} (h : ∀ x ∈ l, p x = true) :
    l.dropWhile p = [] := by
  induction l with
  | nil => rfl
  | cons a l ih =>
    rw [List.dropWhile_cons_of_pos (h a (List.mem_cons_self _ _))]
    exact ih (fun x hx => h x (List.mem_cons_of_mem _ hx))

theorem dropWhile_eq_filter_of_sorted (o : Int) (l : List Int) (h : l.Pairwise (· ≤ ·)) :
    l.dropWhile (fun x => decide (x ≤ o)) = l.filter (fun x => decide (o < x)) := by
  induction l with
  | nil => rfl
  | cons a l ih =>
    rw [List.pairwise_cons] at h
    by_cases ha : a ≤ o
    · rw [List.dropWhile_cons_of_pos (by simpa using ha), List.filter_cons_of_neg (by simpa using ha)]
      exact ih h.2
    · rw [List.dropWhile_cons_of_neg (by simpa using ha)]
      symm
      rw [List.filter_eq_self]
      intro x hx
      rcases List.mem_cons.1 hx with rfl | hx
      · simpa using ha
      · have := h.1 x hx
        simp only [decide_eq_true_eq]; omega

theorem accept_cases (t : Int) (r : RateLimiter) (h : WF r) :
    ∃ r1, purge t r = some r1 ∧ WF r1 ∧ r1.cap = r.cap ∧ r1.deltaT = r.deltaT ∧
      r1.log = r.log ∧
      queue r1 = (queue r).dropWhile (fun x => decide (x ≤ oldest t r.deltaT)) ∧
      ((r1.cap ≤ r1.len ∧ accept t r = some (false, r1)) ∨
       (r1.len < r1.cap ∧ ∃ r2, accept t r = some (true, r2) ∧ WF r2 ∧
          queue r2 = queue r1 ++ [t] ∧ r2.cap = r.cap ∧ r2.deltaT = r.deltaT ∧
          r2.log.length = r.log.length ∧ r2.len = r1.len + 1)) := by
  obtain ⟨r1, e1, w1, q1, l1, c1, d1, -, -⟩ := purge_spec t r h
  refine ⟨r1, e1, w1, c1, d1, l1, q1, ?_⟩
  by_cases hc : r1.len ≥ r1.cap
  · left
    refine ⟨hc, ?_⟩
    simp only [accept, e1, hc, if_true]
  · right
    have hlt : r1.len < r1.log.length := by
      have := w1.2.2.2.1; omega
    obtain ⟨l, g1, g2, g3, g4⟩ := queue_push r1 t w1 hlt
    refine ⟨by omega, { r1 with log := l, len := r1.len + 1 }, ?_, ?_, g4, c1, d1,
      by simp only; rw [g3, l1], rfl⟩
    · simp only [accept, e1, hc, if_false, g1, g2]
    · obtain ⟨a0, a1, a2, a3, a4⟩ := w1
      refine ⟨by simp only; omega, by simp only; omega, a2, by simp only; omega, ?_⟩
      simp only [g3]; exact a4

theorem inv_mono {maxN deltaT lo hi : Int} {s : RateLimiter × List Int}
    (h : Inv maxN deltaT lo s) (hle : lo ≤ hi) : Inv maxN deltaT hi s := by
  obtain ⟨w, d, n, ⟨dr, e, hdr⟩, hs, hp⟩ := h
  exact ⟨w, d, n, ⟨dr, e, fun x hx => by have := hdr x hx; omega⟩,
    fun x hx => by have := hs x hx; omega, hp⟩

theorem inv_new {maxN deltaT : Int} {r0 : RateLimiter} (lo : Int)
    (h : New maxN deltaT = some r0) : Inv maxN deltaT lo (r0, []) := by
  unfold New at h
  split at h
  · cases h
  · cases h
    refine ⟨⟨le_refl _, ?_, ?_, ?_, ?_⟩, rfl, ?_, ⟨[], ?_, ?_⟩, ?_, List.Pairwise.nil⟩
    · simp
    · simp only; omega
    · simp only [List.length_replicate]; omega
    · intro hpos
      simp only [List.length_replicate] at hpos ⊢
      omega
    · simp only [List.length_replicate]; omega
    · simp [queue]
    · intro x hx; cases hx
    · intro x hx; cases hx

theorem inv_purge {maxN deltaT t : Int} {r : RateLimiter} {h : List Int}
    (hi : Inv maxN deltaT t (r, h)) (hov : NoOverflow t deltaT) :
    ∃ r1, purge t r = some r1 ∧ Inv maxN deltaT t (r1, h) ∧ r1.cap = r.cap ∧
      (∀ x ∈ queue r1, t - deltaT < x) := by
  obtain ⟨w, d, n, ⟨dr, e, hdr⟩, hs, hp⟩ := hi
  simp only at w d n e hs hp
  obtain ⟨r1, e1, w1, c1, d1, l1, q1, -⟩ := accept_cases t r w
  rw [d, oldest_eq_sub t deltaT hov] at q1
  have hsplit := List.takeWhile_append_dropWhile (fun x => decide (x ≤ t - deltaT)) (queue r)
  have hsorted : (queue r).Pairwise (· ≤ ·) := by
    rw [e] at hp; exact (List.pairwise_append.1 hp).2.1
  refine ⟨r1, e1, ⟨w1, by rw [d1, d], by rw [l1]; exact n, ⟨dr ++ (queue r).takeWhile
    (fun x => decide (x ≤ t - deltaT)), ?_, ?_⟩, hs, hp⟩, c1, ?_⟩
  · simp only [e, q1, List.append_assoc, hsplit]
  · intro x hx
    rcases List.mem_append.1 hx with hx | hx
    · exact hdr x hx
    · simpa using (List.mem_takeWhile_imp hx)
  · intro x hx
    rw [q1, dropWhile_eq_filter_of_sorted _ _ hsorted] at hx
    simpa using (List.mem_filter.1 hx).2

theorem inv_accept {maxN deltaT t : Int} {r : RateLimiter} {h : List Int}
    (hi : Inv maxN deltaT t (r, h)) (hov : NoOverflow t deltaT) :
    ∃ b r2, accept t r = some (b, r2) ∧
      Inv maxN deltaT t (r2, if b then h ++ [t] else h) ∧
      (b = true → (countWindow (h ++ [t]) (t - deltaT) t : Int) ≤ r.cap) := by
  obtain ⟨r1, e1, hi1, c1, -⟩ := inv_purge hi hov
  obtain ⟨w, d, n, ⟨dr, e, hdr⟩, hs, hp⟩ := hi1
  simp only at w d n e hs hp
  obtain ⟨r1b, e1b, -, -, -, -, -, hcase⟩ := accept_cases t r hi.1
  rw [e1] at e1b; cases e1b
  rcases hcase with ⟨-, ha⟩ | ⟨hlt, r2, ha, w2, q2, c2, d2, l2, n2⟩
  · exact ⟨false, r1, ha, ⟨w, d, n, ⟨dr, e, hdr⟩, hs, hp⟩, fun hb => by cases hb⟩
  · refine ⟨true, r2, ha, ⟨w2, by rw [d2]; exact hi.2.1, by rw [l2]; exact hi.2.2.1,
      ⟨dr, ?_, hdr⟩, ?_, ?_⟩, fun _ => ?_⟩
    · simp only [if_true, q2, e, List.append_assoc]
    · intro x hx
      simp only [if_true] at hx
      rcases List.mem_append.1 hx with hx | hx
      · exact hs x hx
      · rw [List.mem_singleton] at hx; omega
    · simp only [if_true]
      rw [List.pairwise_append]
      refine ⟨hp, List.pairwise_singleton _ _, ?_⟩
      intro a ha b hb
      rw [List.mem_singleton] at hb
      rw [hb]; exact hs a ha
    · have hz : dr.countP (fun x => decide (t - deltaT < x ∧ x ≤ t)) = 0 := by
        rw [List.countP_eq_zero]
        intro x hx
        have := hdr x hx
        simp only [decide_eq_true_eq]; omega
      have h1 : (queue r1).countP (fun x => decide (t - deltaT < x ∧ x ≤ t)) ≤ (queue r1).length :=
        List.countP_le_length _
      have h2 : [t].countP (fun x => decide (t - deltaT < x ∧ x ≤ t)) ≤ 1 :=
        List.countP_le_length _
      have h3 := queue_length_int r1 w
      unfold countWindow
      rw [e, List.countP_append, List.countP_append, hz]
      omega

theorem inv_setCap {maxN deltaT lo : Int} {r : RateLimiter} {h : List Int} (c : Int)
    (hi : Inv maxN deltaT lo (r, h)) (h0 : 0 ≤ c) (h1 : c ≤ r.log.length) :
    Inv maxN deltaT lo ({ r with cap := c }, h) := by
  obtain ⟨⟨a0, a1, -, -, a4⟩, d, n, q, hs, hp⟩ := hi
  exact ⟨⟨a0, a1, h0, h1, a4⟩, d, n, q, hs, hp⟩

theorem inv_SetN {maxN deltaT lo : Int} {r : RateLimiter} {h : List Int} (c : Int)
    (hi : Inv maxN deltaT lo (r, h)) : Inv maxN deltaT lo (SetN c r, h) := by
  unfold SetN
  split
  · exact inv_setCap 0 hi (le_refl _) (by omega)
  · split
    · exact inv_setCap _ hi (by omega) (le_refl _)
    · exact inv_setCap c hi (by omega) (by omega)

theorem inv_Reset {maxN deltaT lo : Int} {r : RateLimiter} {h : List Int}
    (hi : Inv maxN deltaT lo (r, h)) : Inv maxN deltaT lo (Reset r, []) := by
  obtain ⟨⟨a0, a1, a2, a3, a4⟩, d, n, -, -, -⟩ := hi
  refine ⟨⟨le_refl _, ?_, a2, a3, a4⟩, d, n, ⟨[], ?_, ?_⟩, ?_, List.Pairwise.nil⟩
  · simp only [Reset]; omega
  · simp [queue, Reset]
  · intro x hx; cases hx
  · intro x hx; cases hx

theorem inv_step {maxN deltaT lo : Int} (o : Op) {s : RateLimiter × List Int}
    (hi : Inv maxN deltaT lo s)
    (hr : ∀ u ∈ clockReadings [o], lo ≤ u ∧ NoOverflow u deltaT) :
    ∃ s1 mid, stepOp o s = some s1 ∧ Inv maxN deltaT mid s1 ∧
      (mid = lo ∨ mid ∈ clockReadings [o]) := by
  obtain ⟨r, h⟩ := s
  cases o with
  | Accept now =>
    obtain ⟨hlo, hov⟩ := hr now (by simp [clockReadings])
    obtain ⟨b, r2, e, hi2, -⟩ := inv_accept (inv_mono hi hlo) hov
    exact ⟨_, now, by simp only [stepOp, Accept, e], hi2, Or.inr (by simp [clockReadings])⟩
  | Reject now =>
    obtain ⟨hlo, hov⟩ := hr now (by simp [clockReadings])
    obtain ⟨b, r2, e, hi2, -⟩ := inv_accept (inv_mono hi hlo) hov
    refine ⟨(r2, if b then h ++ [now] else h), now, ?_, hi2, Or.inr (by simp [clockReadings])⟩
    cases b <;> simp [stepOp, Reject, e]
  | Purge now =>
    obtain ⟨hlo, hov⟩ := hr now (by simp [clockReadings])
    obtain ⟨r1, e, hi1, -, -⟩ := inv_purge (inv_mono hi hlo) hov
    exact ⟨_, now, by simp only [stepOp, Purge, e], hi1, Or.inr (by simp [clockReadings])⟩
  | Len => exact ⟨_, lo, rfl, hi, Or.inl rfl⟩
  | N => exact ⟨_, lo, rfl, hi, Or.inl rfl⟩
  | SetN c => exact ⟨_, lo, rfl, inv_SetN c hi, Or.inl rfl⟩
  | ResetN => exact ⟨_, lo, rfl, inv_setCap _ hi (by omega) (le_refl _), Or.inl rfl⟩
  | Reset => exact ⟨_, lo, rfl, inv_Reset hi, Or.inl rfl⟩

theorem clockReadings_cons (o : Op) (os : List Op) :
    clockReadings (o :: os) = clockReadings [o] ++ clockReadings os := by
  cases o <;> rfl

theorem run_inv {maxN deltaT : Int} : ∀ (ops : List Op) (lo hi : Int)
    (s : RateLimiter × List Int), Inv maxN deltaT lo s → lo ≤ hi →
    (clockReadings ops).Pairwise (· ≤ ·) →
    (∀ u ∈ clockReadings ops, lo ≤ u ∧ u ≤ hi ∧ NoOverflow u deltaT) →
    ∃ s1, run ops s = some s1 ∧ Inv maxN deltaT hi s1 := by
  intro ops
  induction ops with
  | nil =>
    intro lo hi s hinv hle _ _
    exact ⟨s, rfl, inv_mono hinv hle⟩
  | cons o os ih =>
    intro lo hi s hinv hle hp hr
    rw [clockReadings_cons] at hp hr
    obtain ⟨hp1, hp2, hp3⟩ := List.pairwise_append.1 hp
    obtain ⟨s1, mid, e1, hi1, hmid⟩ := inv_step o hinv (fun u hu =>
      ⟨(hr u (List.mem_append_left _ hu)).1, (hr u (List.mem_append_left _ hu)).2.2⟩)
    have hmidhi : mid ≤ hi := by
      rcases hmid with rfl | hm
      · exact hle
      · exact (hr mid (List.mem_append_left _ hm)).2.1
    obtain ⟨s2, e2, hi2⟩ := ih mid hi s1 hi1 hmidhi hp2 (fun u hu => by
      have hu2 := hr u (List.mem_append_right _ hu)
      refine ⟨?_, hu2.2.1, hu2.2.2⟩
      rcases hmid with rfl | hm
      · exact hu2.1
      · exact hp3 mid hm u hu)
    exact ⟨s2, by simp only [run, e1, e2], hi2⟩

theorem run_from_new {maxN deltaT : Int} (ops : List Op) (t : Int) (hN : 0 ≤ maxN)
    (hmono : (clockReadings ops ++ [t]).Pairwise (· ≤ ·))
    (hov : ∀ u ∈ clockReadings ops ++ [t], NoOverflow u deltaT) :
    ∃ r0 r h, New maxN deltaT = some r0 ∧ run ops (r0, []) = some (r, h) ∧
      Inv maxN deltaT t (r, h) := by
  have hnew : ∃ r0, New maxN deltaT = some r0 := by
    unfold New
    rw [if_neg (by omega)]
    exact ⟨_, rfl⟩
  obtain ⟨r0, e0⟩ := hnew
  obtain ⟨hp1, -, hp3⟩ := List.pairwise_append.1 hmono
  cases hc : clockReadings ops with
  | nil =>
    obtain ⟨s1, e1, hi1⟩ := run_inv ops t t (r0, []) (inv_new t e0) (le_refl _)
      (by rw [hc]; exact List.Pairwise.nil) (by rw [hc]; intro u hu; cases hu)
    exact ⟨r0, s1.1, s1.2, e0, e1, hi1⟩
  | cons a l =>
    rw [hc] at hp1 hp3 hov
    have ha : ∀ u ∈ a :: l, a ≤ u := by
      intro u hu
      rcases List.mem_cons.1 hu with rfl | hu
      · exact le_refl _
      · exact (List.pairwise_cons.1 hp1).1 u hu
    obtain ⟨s1, e1, hi1⟩ := run_inv ops a t (r0, []) (inv_new a e0)
      (hp3 a (List.mem_cons_self _ _) t (List.mem_singleton_self _))
      (by rw [hc]; exact hp1)
      (by
        rw [hc]; intro u hu
        exact ⟨ha u hu, hp3 u hu t (List.mem_singleton_self _),
          hov u (List.mem_append_left _ hu)⟩)
    exact ⟨r0, s1.1, s1.2, e0, e1, hi1⟩

theorem takeWhile_eq_filter_of_sorted (o : Int) (l : List Int) (h : l.Pairwise (· ≤ ·)) :
    l.takeWhile (fun x => decide (x ≤ o)) = l.filter (fun x => decide (x ≤ o)) := by
  induction l with
  | nil => rfl
  | cons a l ih =>
    rw [List.pairwise_cons] at h
    by_cases ha : a ≤ o
    · rw [List.takeWhile_cons_of_pos (by simpa using ha), List.filter_cons_of_pos (by simpa using ha),
        ih h.2]
    · rw [List.takeWhile_cons_of_neg (by simpa using ha)]
      symm
      rw [List.filter_eq_nil_iff]
      intro x hx
      rcases List.mem_cons.1 hx with rfl | hx
      · simpa using ha
      · have := h.1 x hx
        simp only [decide_eq_true_eq]; omega

theorem purgeLoop_log (o : Int) : ∀ (k : Nat) (r r1 : RateLimiter),
    purgeLoop o k r = some r1 → r1.log = r.log := by
  intro k
  induction k with
  | zero =>
    intro r r1 h
    simp only [purgeLoop, Option.some.injEq] at h
    rw [← h]
  | succ k ih =>
    intro r r1 h
    unfold purgeLoop at h
    split at h
    · split at h
      · cases h
      · split at h
        · split at h
          · cases h
          · have := ih _ r1 h
            exact this
        · cases h; rfl
    · cases h; rfl

theorem accept_log_length (t : Int) (r : RateLimiter) (b : Bool) (r1 : RateLimiter)
    (h : accept t r = some (b, r1)) : r1.log.length = r.log.length := by
  unfold accept at h
  split at h
  · cases h
  · rename_i rp hp
    have hlog := purgeLoop_log _ _ _ _ hp
    split at h
    · cases h; rw [hlog]
    · split at h
      · cases h
      · split at h
        · cases h
        · rename_i l hl
          cases h
          simp only
          unfold sliceSet at hl
          split at hl
          · cases hl
            rw [List.length_set, hlog]
          · cases hl

theorem stepOp_log_length (o : Op) (s s1 : RateLimiter × List Int)
    (h : stepOp o s = some s1) : s1.1.log.length = s.1.log.length := by
  cases o with
  | Accept now =>
    simp only [stepOp, Accept] at h
    split at h
    · cases h
    · rename_i b r1 e
      cases h
      exact accept_log_length _ _ _ _ e
  | Reject now =>
    simp only [stepOp, Reject] at h
    split at h
    · cases h
    · rename_i b r1 e
      cases h
      split at e
      · cases e
      · rename_i b2 r2 e2
        cases e
        exact accept_log_length _ _ _ _ e2
  | Purge now =>
    simp only [stepOp, Purge] at h
    split at h
    · cases h
    · rename_i r1 e
      cases h
      simp only
      rw [purgeLoop_log _ _ _ _ e]
  | Len => cases h; rfl
  | N => cases h; rfl
  | SetN c =>
    cases h
    simp only [SetN]
    split
    · rfl
    · split <;> rfl
  | ResetN => cases h; rfl
  | Reset => cases h; rfl

theorem run_log_length : ∀ (ops : List Op) (s s1 : RateLimiter × List Int),
    run ops s = some s1 → s1.1.log.length = s.1.log.length := by
  intro ops
  induction ops with
  | nil =>
    intro s s1 h
    cases h; rfl
  | cons o os ih =>
    intro s s1 h
    simp only [run] at h
    split at h
    · cases h
    · rename_i s2 e
      rw [ih _ _ h, stepOp_log_length _ _ _ e]

theorem acceptAll_spec : ∀ (ts : List Int) (r : RateLimiter), WF r →
    (∀ x ∈ queue r, ∀ t ∈ ts, oldest t r.deltaT < x) →
    ts.Pairwise (fun a b => oldest b r.deltaT < a) →
    ∃ r1, acceptAll ts r =
        some (List.replicate (min ts.length (r.cap - r.len).toNat) true ++
              List.replicate (ts.length - min ts.length (r.cap - r.len).toNat) false, r1) ∧
      r1.len = r.len + (min ts.length (r.cap - r.len).toNat : Nat) ∧ r1.cap = r.cap ∧
      r1.deltaT = r.deltaT ∧ r1.log.length = r.log.length ∧ WF r1 := by
  intro ts
  induction ts with
  | nil =>
    intro r h _ _
    exact ⟨r, by simp [acceptAll], by simp, rfl, rfl, rfl, h⟩
  | cons t ts ih =>
    intro r h hq hp
    rw [List.pairwise_cons] at hp
    have hno := purge_noop t r h (fun x hx => hq x hx t (List.mem_cons_self _ _))
    obtain ⟨rp, e1, -, -, -, -, -, hcase⟩ := accept_cases t r h
    rw [hno] at e1; cases e1
    rcases hcase with ⟨hge, ha⟩ | ⟨hlt, r2, ha, w2, q2, c2, d2, l2, n2⟩
    · obtain ⟨r1, e, hl, hc, hd, hg, hw⟩ := ih r h
        (fun x hx u hu => hq x hx u (List.mem_cons_of_mem _ hu)) hp.2
      have hz : (r.cap - r.len).toNat = 0 := by omega
      rw [hz] at e hl
      refine ⟨r1, ?_, ?_, hc, hd, hg, hw⟩
      · simp only [acceptAll, Accept, ha, e, hz]
        simp [List.replicate_succ]
      · rw [hz]; simpa using hl
    · obtain ⟨r1, e, hl, hc, hd, hg, hw⟩ := ih r2 w2
        (fun x hx u hu => by
          rw [q2] at hx
          rw [d2]
          rcases List.mem_append.1 hx with hx | hx
          · exact hq x hx u (List.mem_cons_of_mem _ hu)
          · rw [List.mem_singleton] at hx
            rw [hx]; exact hp.1 u hu)
        (by rw [d2]; exact hp.2)
      have hm : (r.cap - r.len).toNat = (r2.cap - r2.len).toNat + 1 := by omega
      have hmin : min (t :: ts).length (r.cap - r.len).toNat
          = min ts.length (r2.cap - r2.len).toNat + 1 := by
        rw [hm, List.length_cons]; omega
      refine ⟨r1, ?_, ?_, by rw [hc, c2], by rw [hd, d2], by rw [hg, l2], hw⟩
      · simp only [acceptAll, Accept, ha, e]
        rw [hmin, List.length_cons, List.replicate_succ, Nat.add_sub_add_right]
        rfl
      · rw [hl, hmin, n2]; push_cast; ring

/-! ## Lemmas on arbitrary runs -/

theorem SetN_eq (x : Int) (r : RateLimiter) :
    SetN x r = { r with cap := clamp x 0 r.log.length } := by
  unfold SetN clamp
  split
  · rfl
  · split <;> rfl

theorem clamp_bounds (x : Int) (n : Nat) : 0 ≤ clamp x 0 n ∧ clamp x 0 n ≤ n := by
  unfold clamp
  split
  · omega
  · split <;> omega

theorem wf_setCap (r : RateLimiter) (c : Int) (h : WF r) (h0 : 0 ≤ c) (h1 : c ≤ r.log.length) :
    WF { r with cap := c } := by
  obtain ⟨a0, a1, -, -, a4⟩ := h
  exact ⟨a0, a1, h0, h1, a4⟩

theorem wf_SetN (x : Int) (r : RateLimiter) (h : WF r) : WF (SetN x r) := by
  rw [SetN_eq]
  exact wf_setCap r _ h (clamp_bounds x _).1 (clamp_bounds x _).2

theorem wf_Reset (r : RateLimiter) (h : WF r) : WF (Reset r) := by
  obtain ⟨-, -, a2, a3, a4⟩ := h
  exact ⟨le_refl _, by simp only [Reset]; omega, a2, a3, a4⟩

theorem new_wf (maxN deltaT : Int) (hN : 0 ≤ maxN) :
    ∃ r0, New maxN deltaT = some r0 ∧ WF r0 ∧ (r0.log.length : Int) = maxN ∧
      r0.deltaT = deltaT ∧ r0.len = 0 ∧ r0.cap = maxN := by
  refine ⟨{ log := List.replicate maxN.toNat 0, end_ := 0, len := 0, cap := maxN,
            deltaT := deltaT }, ?_, ?_, ?_, rfl, rfl, rfl⟩
  · unfold New
    rw [if_neg (by omega)]
  · refine ⟨le_refl _, ?_, hN, ?_, ?_⟩
    · simp
    · simp only [List.length_replicate]; omega
    · intro hpos
      simp only [List.length_replicate] at hpos ⊢
      omega
  · simp only [List.length_replicate]; omega

theorem step_wf (o : Op) (s : RateLimiter × List Int) (h : WF s.1) :
    ∃ s1, stepOp o s = some s1 ∧ WF s1.1 ∧ s1.1.log.length = s.1.log.length ∧
      s1.1.deltaT = s.1.deltaT := by
  obtain ⟨r, hist⟩ := s
  simp only at h
  cases o with
  | Accept now =>
    obtain ⟨b, r1, e, w, -, -, d, l⟩ := accept_spec now r h
    exact ⟨(r1, if b then hist ++ [now] else hist), by simp only [stepOp, Accept, e], w, l, d⟩
  | Reject now =>
    obtain ⟨b, r1, e, w, -, -, d, l⟩ := accept_spec now r h
    refine ⟨(r1, if b then hist ++ [now] else hist), ?_, w, l, d⟩
    cases b <;> simp [stepOp, Reject, e]
  | Purge now =>
    obtain ⟨r1, e, w, -, l, -, d, -, -⟩ := purge_spec now r h
    exact ⟨(r1, hist), by simp only [stepOp, Purge, e], w, by simp only [l], d⟩
  | Len => exact ⟨_, rfl, h, rfl, rfl⟩
  | N => exact ⟨_, rfl, h, rfl, rfl⟩
  | SetN c =>
    refine ⟨_, rfl, wf_SetN c r h, ?_, ?_⟩ <;> rw [SetN_eq]
  | ResetN => exact ⟨_, rfl, wf_setCap r _ h (by omega) (le_refl _), rfl, rfl⟩
  | Reset => exact ⟨_, rfl, wf_Reset r h, rfl, rfl⟩

theorem run_wf : ∀ (ops : List Op) (s : RateLimiter × List Int), WF s.1 →
    ∃ s1, run ops s = some s1 ∧ WF s1.1 ∧ s1.1.log.length = s.1.log.length ∧
      s1.1.deltaT = s.1.deltaT := by
  intro ops
  induction ops with
  | nil =>
    intro s h
    exact ⟨s, rfl, h, rfl, rfl⟩
  | cons o os ih =>
    intro s h
    obtain ⟨s1, e1, w1, l1, d1⟩ := step_wf o s h
    obtain ⟨s2, e2, w2, l2, d2⟩ := ih s1 w1
    exact ⟨s2, by simp only [run, e1, e2], w2, by rw [l2, l1], by rw [d2, d1]⟩

theorem accept_stale (t : Int) (r : RateLimiter) (hwf : WF r) (hn : 1 ≤ r.cap)
    (hold : ∀ x ∈ queue r, x ≤ oldest t r.deltaT) :
    ∃ rp r1, purge t r = some rp ∧ rp.len = 0 ∧ accept t r = some (true, r1) ∧
      r1.len = 1 ∧ queue r1 = [t] := by
  obtain ⟨rp, ep, wp, cp, -, -, qp, hcase⟩ := accept_cases t r hwf
  rw [dropWhile_eq_nil_of_all (fun x hx => by simpa using hold x hx)] at qp
  have hlen : rp.len = 0 := by
    have := queue_length_int rp wp
    rw [qp] at this
    simpa using this.symm
  rcases hcase with ⟨hge, -⟩ | ⟨-, r2, ha, -, q2, -, -, -, n2⟩
  · omega
  · exact ⟨rp, r2, ep, hlen, ha, by rw [n2, hlen]; rfl, by rw [q2, qp]; rfl⟩

theorem chron_mono {lo hi : Int} {s : RateLimiter × List Int} (h : Chron lo s)
    (hle : lo ≤ hi) : Chron hi s := by
  obtain ⟨w, q, hs, hp⟩ := h
  exact ⟨w, q, fun x hx => by have := hs x hx; omega, hp⟩

theorem chron_purge {t : Int} {r : RateLimiter} {h : List Int} (hc : Chron t (r, h)) :
    ∃ r1, purge t r = some r1 ∧ Chron t (r1, h) := by
  obtain ⟨w, ⟨d, e⟩, hs, hp⟩ := hc
  simp only at w e hs hp
  obtain ⟨r1, e1, w1, q1, -⟩ := purge_spec t r w
  have hsplit := List.takeWhile_append_dropWhile
    (fun x => decide (x ≤ oldest t r.deltaT)) (queue r)
  refine ⟨r1, e1, w1, ⟨d ++ (queue r).takeWhile (fun x => decide (x ≤ oldest t r.deltaT)), ?_⟩,
    hs, hp⟩
  simp only [e, q1, List.append_assoc, hsplit]

theorem chron_accept {t : Int} {r : RateLimiter} {h : List Int} (hc : Chron t (r, h)) :
    ∃ b r2, accept t r = some (b, r2) ∧ Chron t (r2, if b then h ++ [t] else h) := by
  obtain ⟨r1, e1, hc1⟩ := chron_purge hc
  obtain ⟨w, ⟨d, e⟩, hs, hp⟩ := hc1
  simp only at w e hs hp
  obtain ⟨r1b, e1b, -, -, -, -, -, hcase⟩ := accept_cases t r hc.1
  rw [e1] at e1b; cases e1b
  rcases hcase with ⟨-, ha⟩ | ⟨-, r2, ha, w2, q2, -⟩
  · exact ⟨false, r1, ha, w, ⟨d, e⟩, hs, hp⟩
  · refine ⟨true, r2, ha, w2, ⟨d, ?_⟩, ?_, ?_⟩
    · simp only [if_true, q2, e, List.append_assoc]
    · intro x hx
      simp only [if_true] at hx
      rcases List.mem_append.1 hx with hx | hx
      · exact hs x hx
      · rw [List.mem_singleton] at hx; omega
    · simp only [if_true]
      rw [List.pairwise_append]
      refine ⟨hp, List.pairwise_singleton _ _, ?_⟩
      intro a ha b hb
      rw [List.mem_singleton] at hb
      rw [hb]; exact hs a ha

theorem chron_setCap {lo : Int} {r : RateLimiter} {h : List Int} (c : Int)
    (hc : Chron lo (r, h)) (h0 : 0 ≤ c) (h1 : c ≤ r.log.length) :
    Chron lo ({ r with cap := c }, h) := by
  obtain ⟨w, q, hs, hp⟩ := hc
  exact ⟨wf_setCap r c w h0 h1, q, hs, hp⟩

theorem chron_step {lo : Int} (o : Op) {s : RateLimiter × List Int} (hc : Chron lo s)
    (hr : ∀ u ∈ clockReadings [o], lo ≤ u) :
    ∃ s1 mid, stepOp o s = some s1 ∧ Chron mid s1 ∧
      (mid = lo ∨ mid ∈ clockReadings [o]) := by
  obtain ⟨r, h⟩ := s
  cases o with
  | Accept now =>
    have hlo := hr now (by simp [clockReadings])
    obtain ⟨b, r2, e, hc2⟩ := chron_accept (chron_mono hc hlo)
    exact ⟨(r2, if b then h ++ [now] else h), now, by simp only [stepOp, Accept, e], hc2,
      Or.inr (by simp [clockReadings])⟩
  | Reject now =>
    have hlo := hr now (by simp [clockReadings])
    obtain ⟨b, r2, e, hc2⟩ := chron_accept (chron_mono hc hlo)
    refine ⟨(r2, if b then h ++ [now] else h), now, ?_, hc2, Or.inr (by simp [clockReadings])⟩
    cases b <;> simp [stepOp, Reject, e]
  | Purge now =>
    have hlo := hr now (by simp [clockReadings])
    obtain ⟨r1, e, hc1⟩ := chron_purge (chron_mono hc hlo)
    exact ⟨(r1, h), now, by simp only [stepOp, Purge, e], hc1, Or.inr (by simp [clockReadings])⟩
  | Len => exact ⟨(r, h), lo, rfl, hc, Or.inl rfl⟩
  | N => exact ⟨(r, h), lo, rfl, hc, Or.inl rfl⟩
  | SetN c =>
    refine ⟨(SetN c r, h), lo, rfl, ?_, Or.inl rfl⟩
    rw [SetN_eq]
    exact chron_setCap _ hc (clamp_bounds c _).1 (clamp_bounds c _).2
  | ResetN =>
    exact ⟨(ResetN r, h), lo, rfl, chron_setCap _ hc (by omega) (le_refl _), Or.inl rfl⟩
  | Reset =>
    refine ⟨(Reset r, []), lo, rfl, ⟨wf_Reset r hc.1, ⟨[], ?_⟩, ?_, List.Pairwise.nil⟩,
      Or.inl rfl⟩
    · simp [queue, Reset]
    · intro x hx; cases hx

theorem chron_run : ∀ (ops : List Op) (lo : Int) (s : RateLimiter × List Int),
    Chron lo s → (clockReadings ops).Pairwise (· ≤ ·) →
    (∀ u ∈ clockReadings ops, lo ≤ u) →
    ∃ s1 hi, run ops s = some s1 ∧ Chron hi s1 := by
  intro ops
  induction ops with
  | nil =>
    intro lo s hc _ _
    exact ⟨s, lo, rfl, hc⟩
  | cons o os ih =>
    intro lo s hc hp hr
    rw [clockReadings_cons] at hp hr
    obtain ⟨-, hp2, hp3⟩ := List.pairwise_append.1 hp
    obtain ⟨s1, mid, e1, hc1, hmid⟩ := chron_step o hc
      (fun u hu => hr u (List.mem_append_left _ hu))
    obtain ⟨s2, hi, e2, hc2⟩ := ih mid s1 hc1 hp2 (fun u hu => by
      rcases hmid with rfl | hm
      · exact hr u (List.mem_append_right _ hu)
      · exact hp3 mid hm u hu)
    exact ⟨s2, hi, by simp only [run, e1, e2], hc2⟩

theorem purgeTrace_spec (o : Int) : ∀ (k : Nat) (r : RateLimiter), WF r → r.len.toNat ≤ k →
    ∃ r1 n idx, purgeTrace o k r = some (r1, n, idx) ∧ purgeLoop o k r = some r1 ∧
      (n : Int) = r.len - r1.len ∧ idx.length ≤ n + 1 ∧
      ∀ i ∈ idx, ∃ j : Nat, (j : Int) < r.len ∧ i = (r.end_ + j) % r.log.length := by
  intro k
  induction k with
  | zero =>
    intro r _ _
    exact ⟨r, 0, [], rfl, rfl, by simp, by simp, fun i hi => by cases hi⟩
  | succ k ih =>
    intro r h hk
    by_cases hl : 0 < r.len
    · obtain ⟨x, hx, hm, hwf, -⟩ := queue_pop r h hl
      have hself : r.end_ = (r.end_ + ((0 : Nat) : Int)) % r.log.length := by
        have := end_emod_self r h
        simpa using this
      by_cases hxo : x ≤ o
      · obtain ⟨r1, n, idx, e1, e2, hn, hlen, hidx⟩ :=
          ih { r with len := r.len - 1, end_ := (r.end_ + 1) % r.log.length } hwf
            (by simp only; omega)
        simp only at hn hidx
        refine ⟨r1, n + 1, r.end_ :: idx, ?_, ?_, by push_cast; omega, by simp only [List.length_cons]; omega, ?_⟩
        · simp only [purgeTrace, gt_iff_lt, hl, if_true, hx, hxo, hm, e1]
        · simp only [purgeLoop, gt_iff_lt, hl, if_true, hx, hxo, hm]
          exact e2
        · intro i hi
          rcases List.mem_cons.1 hi with rfl | hi
          · exact ⟨0, by simpa using hl, hself⟩
          · obtain ⟨j, hj, hij⟩ := hidx i hi
            refine ⟨j + 1, by push_cast; omega, ?_⟩
            rw [hij, Int.emod_add_emod]
            congr 1; push_cast; ring
      · refine ⟨r, 0, [r.end_], ?_, ?_, by simp, by simp, ?_⟩
        · simp only [purgeTrace, gt_iff_lt, hl, if_true, hx, hxo, if_false]
        · simp only [purgeLoop, gt_iff_lt, hl, if_true, hx, hxo, if_false]
        · intro i hi
          rw [List.mem_singleton] at hi
          rw [hi]
          exact ⟨0, by simpa using hl, hself⟩
    · refine ⟨r, 0, [], ?_, ?_, by simp, by simp, fun i hi => by cases hi⟩
      · simp only [purgeTrace, gt_iff_lt, hl, if_false]
      · simp only [purgeLoop, gt_iff_lt, hl, if_false]

theorem step_zero (deltaT : Int) (o : Op) :
    stepOp o (⟨[], 0, 0, 0, deltaT⟩, []) = some (⟨[], 0, 0, 0, deltaT⟩, []) := by
  cases o with
  | Accept now => simp [stepOp, Accept, accept, purge, purgeLoop]
  | Reject now => simp [stepOp, Reject, accept, purge, purgeLoop]
  | Purge now => simp [stepOp, Purge, purge, purgeLoop]
  | Len => rfl
  | N => rfl
  | SetN c =>
    simp only [stepOp, SetN_eq, clamp]
    split
    · rfl
    · split
      · rfl
      · have : c = 0 := by
          simp only [List.length_nil] at *
          omega
        rw [this]
  | ResetN => rfl
  | Reset => rfl

theorem run_zero (deltaT : Int) : ∀ ops : List Op,
    run ops (⟨[], 0, 0, 0, deltaT⟩, []) = some (⟨[], 0, 0, 0, deltaT⟩, []) := by
  intro ops
  induction ops with
  | nil => rfl
  | cons o os ih => simp only [run, step_zero, ih]

/-! ## The claims -/

/-- C1 (sliding-window guarantee).  For a limiter built by `New maxN deltaT`
with `0 ≤ maxN` and `0 < deltaT` and any sequence `ops` of public calls followed
by a call of `accept t`, at non-decreasing clock readings for which
`t - deltaT` does not overflow: the run does not panic, and when `accept t`
returns true, the number of time stamps admitted since construction or the
last `Reset` that lie in `(t - deltaT, t]`, the new one included, is at least 1
and at most the limit `r.cap` in force at the call. -/
theorem sliding_window_guarantee (maxN deltaT : Int) (ops : List Op) (t : Int)
    (hN : 0 ≤ maxN) (hd : 0 < deltaT)
    (hmono : (clockReadings ops ++ [t]).Pairwise (· ≤ ·))
    (hov : ∀ u ∈ clockReadings ops ++ [t], NoOverflow u deltaT) :
    ∃ r0 r h b r1, New maxN deltaT = some r0 ∧ run ops (r0, []) = some (r, h) ∧
      accept t r = some (b, r1) ∧
      (b = true → 1 ≤ countWindow (h ++ [t]) (t - deltaT) t ∧
        (countWindow (h ++ [t]) (t - deltaT) t : Int) ≤ r.cap) := by
  obtain ⟨r0, r, h, e0, e1, hinv⟩ := run_from_new ops t hN hmono hov
  obtain ⟨b, r2, ea, -, hb⟩ := inv_accept hinv (hov t (by simp))
  refine ⟨r0, r, h, b, r2, e0, e1, ea, fun hbt => ⟨?_, hb hbt⟩⟩
  unfold countWindow
  rw [List.countP_append]
  have : [t].countP (fun x => decide (t - deltaT < x ∧ x ≤ t)) = 1 := by
    rw [List.countP_cons_of_pos]
    · rfl
    · simp only [decide_eq_true_eq]; omega
  omega

/-- Witness of C1: `New 2 10`, events at 100, 103 and 105, then `accept 111`. -/
theorem sliding_window_guarantee_witness :
    (clockReadings [Op.Accept 100, Op.Accept 103, Op.Reject 105] ++ [111]).Pairwise (· ≤ ·) ∧
    ∃ r0 r h b r1, New 2 10 = some r0 ∧
      run [Op.Accept 100, Op.Accept 103, Op.Reject 105] (r0, []) = some (r, h) ∧
      accept 111 r = some (b, r1) ∧
      (b = true → 1 ≤ countWindow (h ++ [111]) (111 - 10) 111 ∧
        (countWindow (h ++ [111]) (111 - 10) 111 : Int) ≤ r.cap) :=
  ⟨by decide, sliding_window_guarantee 2 10 [Op.Accept 100, Op.Accept 103, Op.Reject 105] 111
    (by decide) (by decide) (by decide) (by decide)⟩

/-- C2 as stated fails when `t - deltaT` overflows: with limit 1, window
`2^63 - 1` and two calls at the clock reading `-2` (which differ by 0), the
threshold wraps around to `2^63 - 1`, the first event is purged and the second
call is accepted as well. -/
theorem capacity_bound_counterexample :
    New 1 (2 ^ 63 - 1) = some ⟨[0], 0, 0, 1, 2 ^ 63 - 1⟩ ∧
    [(-2 : Int), -2].Pairwise (fun a b => a - b < 2 ^ 63 - 1 ∧ b - a < 2 ^ 63 - 1) ∧
    oldest (-2) (2 ^ 63 - 1) = 2 ^ 63 - 1 ∧
    acceptAll [-2, -2] ⟨[0], 0, 0, 1, 2 ^ 63 - 1⟩
      = some ([true, true], ⟨[-2], 0, 1, 1, 2 ^ 63 - 1⟩) := by
  decide

/-- C2 amended (capacity bound).  From a well-formed state with an empty queue
and limit `L = r.cap`, `k` consecutive `Accept` calls at clock readings that
pairwise differ by less than `deltaT`, and for which `t - deltaT` does not
overflow, return true exactly for the first `min k L` calls and false for the
later ones, and `Len()` is `min k L` afterwards. -/
theorem capacity_bound (r : RateLimiter) (ts : List Int) (hwf : WF r) (hempty : r.len = 0)
    (hpair : ts.Pairwise (fun a b => a - b < r.deltaT ∧ b - a < r.deltaT))
    (hov : ∀ t ∈ ts, NoOverflow t r.deltaT) :
    ∃ r1, acceptAll ts r =
        some (List.replicate (min ts.length r.cap.toNat) true ++
              List.replicate (ts.length - min ts.length r.cap.toNat) false, r1) ∧
      (Len r1).1 = min (ts.length : Int) r.cap ∧ (N r1).1 = r.cap ∧
      r1.log.length = r.log.length := by
  have hq : queue r = [] := by
    apply List.eq_nil_of_length_eq_zero; rw [queue_length]; omega
  obtain ⟨r1, e, hl, hc, -, hg, -⟩ := acceptAll_spec ts r hwf
    (by rw [hq]; intro x hx; cases hx)
    (hpair.imp_of_mem (fun {a b} _ hb hab => by
      rw [oldest_eq_sub b r.deltaT (hov b hb)]; omega))
  rw [hempty, sub_zero] at e hl
  refine ⟨r1, e, ?_, hc, hg⟩
  have := hwf.2.2.1
  simp only [Len, hl]
  omega

/-- Witness of C2: `New(10, 500ms)` accepts 10 events and rejects the 11th. -/
theorem capacity_bound_witness :
    WF ⟨List.replicate 10 0, 0, 0, 10, 500000000⟩ ∧
    ∃ r1, acceptAll (List.replicate 11 1800000000000000000)
        ⟨List.replicate 10 0, 0, 0, 10, 500000000⟩ =
        some (List.replicate (min 11 10) true ++ List.replicate (11 - min 11 10) false, r1) ∧
      (Len r1).1 = min (11 : Int) 10 ∧ (N r1).1 = 10 ∧ r1.log.length = 10 :=
  ⟨by decide, capacity_bound ⟨List.replicate 10 0, 0, 0, 10, 500000000⟩
    (List.replicate 11 1800000000000000000) (by decide) (by decide) (by decide) (by decide)⟩

/-- C3 as stated fails in two ways.  For `n = 0`: the limiter `New(0, 500ms)` has
limit 0 and its queue holds its 0 accepted events (so every queued time stamp
is stale at any time), yet `Accept` returns false, `Reject` returns true and
`Len()` is 0.  For `n = 1` when `t - deltaT` overflows: `New(1, deltaT)` with
the negative window `deltaT = -7423372036854775807` has admitted one event at
`T = 1800000000000000000`; at `t = T + 1` the queued time stamp is
`≤ t - deltaT = 2^63`, but the threshold computed by `purge` wraps around to
`-2^63`, nothing is purged and `Accept` returns false. -/
theorem window_aging_counterexample :
    (New 0 500000000 = some ⟨[], 0, 0, 0, 500000000⟩ ∧
      WF ⟨[], 0, 0, 0, 500000000⟩ ∧
      queue ⟨[], 0, 0, 0, 500000000⟩ = [] ∧
      Accept 1800000000500000000 ⟨[], 0, 0, 0, 500000000⟩
        = some (false, ⟨[], 0, 0, 0, 500000000⟩) ∧
      Reject 1800000000500000000 ⟨[], 0, 0, 0, 500000000⟩
        = some (true, ⟨[], 0, 0, 0, 500000000⟩) ∧
      (Len ⟨[], 0, 0, 0, 500000000⟩).1 = 0) ∧
    (New 1 (-7423372036854775807) = some ⟨[0], 0, 0, 1, -7423372036854775807⟩ ∧
      run [Op.Accept 1800000000000000000] (⟨[0], 0, 0, 1, -7423372036854775807⟩, [])
        = some (⟨[1800000000000000000], 0, 1, 1, -7423372036854775807⟩, [1800000000000000000]) ∧
      WF ⟨[1800000000000000000], 0, 1, 1, -7423372036854775807⟩ ∧
      (N ⟨[1800000000000000000], 0, 1, 1, -7423372036854775807⟩).1 = 1 ∧ (Len ⟨[1800000000000000000], 0, 1, 1, -7423372036854775807⟩).1 = 1 ∧
      (∀ x ∈ queue ⟨[1800000000000000000], 0, 1, 1, -7423372036854775807⟩, x ≤ 1800000000000000001 - (-7423372036854775807)) ∧
      oldest 1800000000000000001 (-7423372036854775807) = -(2 ^ 63) ∧
      Accept 1800000000000000001 ⟨[1800000000000000000], 0, 1, 1, -7423372036854775807⟩ = some (false, ⟨[1800000000000000000], 0, 1, 1, -7423372036854775807⟩) ∧
      Reject 1800000000000000001 ⟨[1800000000000000000], 0, 1, 1, -7423372036854775807⟩ = some (true, ⟨[1800000000000000000], 0, 1, 1, -7423372036854775807⟩)) := by
  decide

/-- C3 amended (window aging).  In a well-formed state whose limit is `n ≥ 1`
and whose queue holds `n` events, at a clock reading `t` for which `t - deltaT`
does not overflow and every queued time stamp is `≤ t - deltaT`, `Accept` at `t`
returns true, `Reject` at `t` returns false, and afterwards the queue holds the
new event only: `Len()` is 1, not 0 and not `n + 1`. -/
theorem window_aging (r : RateLimiter) (t : Int) (hwf : WF r) (hn : 1 ≤ r.cap)
    (hfull : r.len = r.cap) (hov : NoOverflow t r.deltaT)
    (hold : ∀ x ∈ queue r, x ≤ t - r.deltaT) :
    ∃ r1, Accept t r = some (true, r1) ∧ Reject t r = some (false, r1) ∧
      (Len r1).1 = 1 ∧ queue r1 = [t] ∧ (Len r1).1 ≠ 0 ∧ (Len r1).1 ≠ r.cap + 1 := by
  rw [← oldest_eq_sub t r.deltaT hov] at hold
  obtain ⟨rp, -, wp, cp, -, -, qp, hcase⟩ := accept_cases t r hwf
  rw [dropWhile_eq_nil_of_all (fun x hx => by simpa using hold x hx)] at qp
  have hlen : rp.len = 0 := by
    have := queue_length_int rp wp
    rw [qp] at this
    simpa using this.symm
  rcases hcase with ⟨hge, -⟩ | ⟨-, r2, ha, -, q2, -, -, -, n2⟩
  · omega
  · have h1 : r2.len = 1 := by rw [n2, hlen]; rfl
    refine ⟨r2, ha, by simp only [Reject, ha, Bool.not_true], h1, by rw [q2, qp]; rfl, ?_, ?_⟩
    · simp only [Len, h1]; decide
    · simp only [Len, h1]; omega

/-- Witness of C3: limit 3, three events queued (wrapping around the end of
the buffer), `Accept` 500 ms after the newest of them. -/
theorem window_aging_witness :
    WF ⟨[1800000000000000002, 1800000000000000000, 1800000000000000001], 1, 3, 3, 500000000⟩ ∧
    NoOverflow 1800000000500000002 500000000 ∧
    ∃ r1, Accept 1800000000500000002
        ⟨[1800000000000000002, 1800000000000000000, 1800000000000000001], 1, 3, 3, 500000000⟩
        = some (true, r1) ∧
      Reject 1800000000500000002
        ⟨[1800000000000000002, 1800000000000000000, 1800000000000000001], 1, 3, 3, 500000000⟩
        = some (false, r1) ∧
      (Len r1).1 = 1 ∧ queue r1 = [1800000000500000002] ∧ (Len r1).1 ≠ 0 ∧
      (Len r1).1 ≠ 3 + 1 :=
  ⟨by decide, by decide, window_aging
    ⟨[1800000000000000002, 1800000000000000000, 1800000000000000001], 1, 3, 3, 500000000⟩
    1800000000500000002 (by decide) (by decide) (by decide) (by decide) (by decide)⟩

/-- C4 as stated fails when `t - deltaT` overflows.  `New(1, deltaT)` with the
negative window `deltaT = -7423372036854775807` and one `Accept` at
`T = 1800000000000000000` reaches a well-formed state with queue `[T]`.  At
`t = T + 1` the abstract step with the threshold `t - deltaT = 2^63` drops the
entry and returns true with queue `[T + 1]`, while `accept`, whose threshold
wraps around to `-2^63`, returns false and keeps the queue `[T]`. -/
theorem accept_refines_fifo_counterexample :
    New 1 (-7423372036854775807) = some ⟨[0], 0, 0, 1, -7423372036854775807⟩ ∧
    run [Op.Accept 1800000000000000000] (⟨[0], 0, 0, 1, -7423372036854775807⟩, [])
      = some (⟨[1800000000000000000], 0, 1, 1, -7423372036854775807⟩, [1800000000000000000]) ∧
    WF ⟨[1800000000000000000], 0, 1, 1, -7423372036854775807⟩ ∧
    queue ⟨[1800000000000000000], 0, 1, 1, -7423372036854775807⟩ = [1800000000000000000] ∧
    acceptSpec (1800000000000000001 - (-7423372036854775807)) 1 1800000000000000001 (queue ⟨[1800000000000000000], 0, 1, 1, -7423372036854775807⟩) = (true, [1800000000000000001]) ∧
    oldest 1800000000000000001 (-7423372036854775807) = -(2 ^ 63) ∧
    accept 1800000000000000001 ⟨[1800000000000000000], 0, 1, 1, -7423372036854775807⟩ = some (false, ⟨[1800000000000000000], 0, 1, 1, -7423372036854775807⟩) := by
  decide

/-- C4 amended (the circular buffer refines a FIFO list).  In every well-formed
state and at every time `t` for which `t - deltaT` does not overflow, `accept t`
does not panic, and on the queue read off the buffer it is the abstract step
`acceptSpec` with the threshold `t - deltaT`: the stale leading entries are
dropped, then either the call is rejected and nothing is recorded, or `t` is
appended behind the entries that are kept.  The limit, the window and the
length of the buffer are unchanged and the state stays well formed. -/
theorem accept_refines_fifo (r : RateLimiter) (t : Int) (hwf : WF r)
    (hov : NoOverflow t r.deltaT) :
    ∃ b r1, accept t r = some (b, r1) ∧
      (b, queue r1) = acceptSpec (t - r.deltaT) r.cap t (queue r) ∧
      r1.cap = r.cap ∧ r1.log.length = r.log.length ∧ r1.deltaT = r.deltaT ∧ WF r1 := by
  obtain ⟨b, r1, e, w, q, c, d, l⟩ := accept_spec t r hwf
  rw [oldest_eq_sub t r.deltaT hov] at q
  exact ⟨b, r1, e, q, c, l, d, w⟩

/-- Witness of C4: a full buffer of size 3 whose oldest entry is stale; the new
time stamp takes the slot of the purged one. -/
theorem accept_refines_fifo_witness :
    WF ⟨[120, 100, 110], 1, 3, 3, 15⟩ ∧ NoOverflow 121 15 ∧
    accept 121 ⟨[120, 100, 110], 1, 3, 3, 15⟩ = some (true, ⟨[120, 121, 110], 2, 3, 3, 15⟩) ∧
    queue ⟨[120, 121, 110], 2, 3, 3, 15⟩ = [110, 120, 121] ∧
    ∃ b r1, accept 121 ⟨[120, 100, 110], 1, 3, 3, 15⟩ = some (b, r1) ∧
      (b, queue r1) = acceptSpec (121 - 15) 3 121 (queue ⟨[120, 100, 110], 1, 3, 3, 15⟩) ∧
      r1.cap = 3 ∧ r1.log.length = 3 ∧ r1.deltaT = 15 ∧ WF r1 :=
  ⟨by decide, by decide, by decide, by decide,
    accept_refines_fifo ⟨[120, 100, 110], 1, 3, 3, 15⟩ 121 (by decide) (by decide)⟩

/-- C5 (`Reject` is the negation of `Accept`).  From every state and at every
clock reading, `Reject` panics exactly when `Accept` does, and otherwise it
returns the negated boolean and leaves the same state behind. -/
theorem reject_negates_accept (r : RateLimiter) (t : Int) :
    (Accept t r = none ↔ Reject t r = none) ∧
    (∀ b r1, Accept t r = some (b, r1) ↔ Reject t r = some (!b, r1)) := by
  unfold Accept Reject
  cases h : accept t r with
  | none => simp
  | some p =>
    obtain ⟨b0, r0⟩ := p
    refine ⟨by simp, fun b r1 => ?_⟩
    cases b <;> cases b0 <;> simp

/-- C6 as stated fails when `t - deltaT` overflows.  `New(1, deltaT)` with the
negative window `deltaT = -7423372036854775807` and one `Accept` at
`T = 1800000000000000000` reaches a well-formed state with the (ordered) queue
`[T]`.  At `t = T + 1` every entry is `≤ t - deltaT = 2^63`, but the threshold
computed by `purge` wraps around to `-2^63`: `purge` removes nothing and `Len()`
is 1 afterwards. -/
theorem purge_postcondition_counterexample :
    New 1 (-7423372036854775807) = some ⟨[0], 0, 0, 1, -7423372036854775807⟩ ∧
    run [Op.Accept 1800000000000000000] (⟨[0], 0, 0, 1, -7423372036854775807⟩, [])
      = some (⟨[1800000000000000000], 0, 1, 1, -7423372036854775807⟩, [1800000000000000000]) ∧
    WF ⟨[1800000000000000000], 0, 1, 1, -7423372036854775807⟩ ∧
    (queue ⟨[1800000000000000000], 0, 1, 1, -7423372036854775807⟩).Pairwise (· ≤ ·) ∧
    (∀ x ∈ queue ⟨[1800000000000000000], 0, 1, 1, -7423372036854775807⟩, x ≤ 1800000000000000001 - (-7423372036854775807)) ∧
    oldest 1800000000000000001 (-7423372036854775807) = -(2 ^ 63) ∧
    purge 1800000000000000001 ⟨[1800000000000000000], 0, 1, 1, -7423372036854775807⟩ = some ⟨[1800000000000000000], 0, 1, 1, -7423372036854775807⟩ ∧
    queue ⟨[1800000000000000000], 0, 1, 1, -7423372036854775807⟩ = [1800000000000000000] ∧
    (Len ⟨[1800000000000000000], 0, 1, 1, -7423372036854775807⟩).1 = 1 := by
  decide

/-- C6 amended (purge postcondition).  In a well-formed state whose live entries
are non-decreasing and at a time `t` for which `t - deltaT` does not overflow,
`purge t` does not panic; the entries `≤ t - deltaT` are a leading segment of
the queue and are exactly the ones removed, the entries `> t - deltaT` are kept
in their order, `end` advances by the number removed modulo the buffer length,
and the buffer, the limit and the window are unchanged.  When every entry is
`≤ t - deltaT`, `Len()` is 0 afterwards. -/
theorem purge_postcondition (r : RateLimiter) (t : Int) (hwf : WF r)
    (hsorted : (queue r).Pairwise (· ≤ ·)) (hov : NoOverflow t r.deltaT) :
    ∃ r1, purge t r = some r1 ∧
      queue r = (queue r).filter (fun x => decide (x ≤ t - r.deltaT)) ++ queue r1 ∧
      queue r1 = (queue r).filter (fun x => decide (t - r.deltaT < x)) ∧
      (∀ x ∈ queue r1, t - r.deltaT < x) ∧
      r1.len = r.len - ((queue r).filter (fun x => decide (x ≤ t - r.deltaT))).length ∧
      r1.end_ = (r.end_ + ((queue r).filter (fun x => decide (x ≤ t - r.deltaT))).length)
        % r.log.length ∧
      r1.log = r.log ∧ r1.cap = r.cap ∧ r1.deltaT = r.deltaT ∧ WF r1 ∧
      ((∀ x ∈ queue r, x ≤ t - r.deltaT) → (Len r1).1 = 0) := by
  obtain ⟨r1, e1, w1, q1, l1, c1, d1, n1, -⟩ := purge_spec t r hwf
  rw [oldest_eq_sub t r.deltaT hov] at q1
  have hsplit := List.takeWhile_append_dropWhile
    (fun x => decide (x ≤ t - r.deltaT)) (queue r)
  rw [← q1, takeWhile_eq_filter_of_sorted _ _ hsorted] at hsplit
  have hq1 := q1
  rw [dropWhile_eq_filter_of_sorted _ _ hsorted] at hq1
  have hcount : r.len - r1.len
      = ((queue r).filter (fun x => decide (x ≤ t - r.deltaT))).length := by
    have h2 := congrArg List.length hsplit
    rw [List.length_append] at h2
    have h3 := queue_length_int r hwf
    have h4 := queue_length_int r1 w1
    omega
  refine ⟨r1, e1, hsplit.symm, hq1, ?_, by omega, by rw [← hcount]; exact n1, l1, c1, d1, w1,
    ?_⟩
  · intro x hx
    rw [hq1] at hx
    simpa using (List.mem_filter.1 hx).2
  · intro hall
    have h4 := queue_length_int r1 w1
    rw [q1, dropWhile_eq_nil_of_all (fun x hx => by simpa using hall x hx)] at h4
    simpa [Len] using h4.symm

/-- Witness of C6: a queue `[100, 110, 120]` that wraps around the end of the
buffer, purged at 121 with window 15: the entry 100 is removed. -/
theorem purge_postcondition_witness :
    WF ⟨[120, 100, 110], 1, 3, 3, 15⟩ ∧ NoOverflow 121 15 ∧
    purge 121 ⟨[120, 100, 110], 1, 3, 3, 15⟩ = some ⟨[120, 100, 110], 2, 2, 3, 15⟩ ∧
    ∃ r1, purge 121 ⟨[120, 100, 110], 1, 3, 3, 15⟩ = some r1 ∧
      queue ⟨[120, 100, 110], 1, 3, 3, 15⟩ =
        (queue ⟨[120, 100, 110], 1, 3, 3, 15⟩).filter (fun x => decide (x ≤ 121 - 15))
          ++ queue r1 ∧
      queue r1 =
        (queue ⟨[120, 100, 110], 1, 3, 3, 15⟩).filter (fun x => decide (121 - 15 < x)) ∧
      (∀ x ∈ queue r1, 121 - 15 < x) ∧
      r1.len = 3 - ((queue ⟨[120, 100, 110], 1, 3, 3, 15⟩).filter
        (fun x => decide (x ≤ 121 - 15))).length ∧
      r1.end_ = (1 + ((queue ⟨[120, 100, 110], 1, 3, 3, 15⟩).filter
        (fun x => decide (x ≤ 121 - 15))).length) % (3 : Nat) ∧
      r1.log = [120, 100, 110] ∧ r1.cap = 3 ∧ r1.deltaT = 15 ∧ WF r1 ∧
      ((∀ x ∈ queue ⟨[120, 100, 110], 1, 3, 3, 15⟩, x ≤ 121 - 15) → (Len r1).1 = 0) :=
  ⟨by decide, by decide, by decide,
    purge_postcondition ⟨[120, 100, 110], 1, 3, 3, 15⟩ 121 (by decide) (by decide)
      (by decide)⟩

/-- C7 as stated fails when `t - deltaT` overflows: `New(1, deltaT)` with the
negative window `deltaT = -7423372036854775807` and two `Accept` calls at the
clock reading `T = 1800000000000000000` (both admitted: the threshold is then
`2^63 - 1`), followed by `Purge` at `T + 1`, where the threshold wraps around
to `-2^63`.  `Len()` is 1, but no admitted time stamp is `> T + 1 - deltaT`
(and both are above the wrapped threshold). -/
theorem len_after_purge_counterexample :
    New 1 (-7423372036854775807) = some ⟨[0], 0, 0, 1, -7423372036854775807⟩ ∧
    (clockReadings [Op.Accept 1800000000000000000, Op.Accept 1800000000000000000]
      ++ [1800000000000000001]).Pairwise (· ≤ ·) ∧
    run [Op.Accept 1800000000000000000, Op.Accept 1800000000000000000]
        (⟨[0], 0, 0, 1, -7423372036854775807⟩, [])
      = some (⟨[1800000000000000000], 0, 1, 1, -7423372036854775807⟩,
              [1800000000000000000, 1800000000000000000]) ∧
    Purge 1800000000000000001 ⟨[1800000000000000000], 0, 1, 1, -7423372036854775807⟩
      = some ⟨[1800000000000000000], 0, 1, 1, -7423372036854775807⟩ ∧
    (Len ⟨[1800000000000000000], 0, 1, 1, -7423372036854775807⟩).1 = 1 ∧
    countAfter [1800000000000000000, 1800000000000000000]
      (1800000000000000001 - (-7423372036854775807)) = 0 ∧
    countAfter [1800000000000000000, 1800000000000000000]
      (oldest 1800000000000000001 (-7423372036854775807)) = 2 := by
  decide

/-- C7 amended (`Len` after `Purge` is the exact live count).  For a limiter
built by `New maxN deltaT` with `0 ≤ maxN` and any sequence of public calls
followed by `Purge` at `t`, at non-decreasing clock readings for which
`t - deltaT` does not overflow: the run does not panic, and `Len()` right after
the purge is the number of time stamps admitted since construction or the
last `Reset` that are `> t - deltaT`. -/
theorem len_after_purge_exact (maxN deltaT : Int) (ops : List Op) (t : Int) (hN : 0 ≤ maxN)
    (hmono : (clockReadings ops ++ [t]).Pairwise (· ≤ ·))
    (hov : ∀ u ∈ clockReadings ops ++ [t], NoOverflow u deltaT) :
    ∃ r0 r h r1, New maxN deltaT = some r0 ∧ run ops (r0, []) = some (r, h) ∧
      Purge t r = some r1 ∧ (Len r1).1 = (countAfter h (t - deltaT) : Int) := by
  obtain ⟨r0, r, h, e0, e1, hinv⟩ := run_from_new ops t hN hmono hov
  obtain ⟨r1, ep, hinv1, -, hlive⟩ := inv_purge hinv (hov t (by simp))
  obtain ⟨w, -, -, ⟨dr, e, hdr⟩, -, -⟩ := hinv1
  simp only at w e
  refine ⟨r0, r, h, r1, e0, e1, ep, ?_⟩
  have hz : dr.countP (fun x => decide (t - deltaT < x)) = 0 := by
    rw [List.countP_eq_zero]
    intro x hx
    have := hdr x hx
    simp only [decide_eq_true_eq]; omega
  have hall : (queue r1).countP (fun x => decide (t - deltaT < x)) = (queue r1).length := by
    rw [List.countP_eq_length]
    intro x hx
    simpa using hlive x hx
  have h3 := queue_length_int r1 w
  unfold countAfter
  rw [e, List.countP_append, hz, hall]
  simp only [Len]
  omega

/-- Witness of C7: `New(5, 500ms)`, five accepted events and a rejected one,
then `Purge` 500 ms later. -/
theorem len_after_purge_exact_witness :
    (clockReadings [Op.Accept 1000, Op.Accept 1001, Op.Accept 1002, Op.Accept 1003,
        Op.Accept 1004, Op.Accept 1005] ++ [500001002]).Pairwise (· ≤ ·) ∧
    ∃ r0 r h r1, New 5 500000000 = some r0 ∧
      run [Op.Accept 1000, Op.Accept 1001, Op.Accept 1002, Op.Accept 1003,
        Op.Accept 1004, Op.Accept 1005] (r0, []) = some (r, h) ∧
      Purge 500001002 r = some r1 ∧
      (Len r1).1 = (countAfter h (500001002 - 500000000) : Int) :=
  ⟨by decide, len_after_purge_exact 5 500000000
    [Op.Accept 1000, Op.Accept 1001, Op.Accept 1002, Op.Accept 1003,
      Op.Accept 1004, Op.Accept 1005] 500001002 (by decide) (by decide) (by decide)⟩

/-- C8 (`Len` and `N` are read-only).  In every state `Len()` returns the stored
count and `N()` the stored limit, and both leave the state (log, end, len, cap,
deltaT) as it is.  `Len()` does not purge: in a well-formed state whose entries
are all stale at the clock reading `now`, `Len()` still returns the number of
those entries, while the count left by `Purge` at `now` is 0. -/
theorem len_n_read_only (r : RateLimiter) (now : Int) :
    (Len r).1 = r.len ∧ (Len r).2 = r ∧ (N r).1 = r.cap ∧ (N r).2 = r ∧
    (WF r → (∀ x ∈ queue r, x ≤ oldest now r.deltaT) →
      (Len r).1 = (queue r).length ∧ ∃ r1, Purge now r = some r1 ∧ (Len r1).1 = 0) := by
  refine ⟨rfl, rfl, rfl, rfl, fun hwf hall => ⟨(queue_length_int r hwf).symm, ?_⟩⟩
  obtain ⟨r1, e1, w1, q1, -⟩ := purge_spec now r hwf
  refine ⟨r1, e1, ?_⟩
  have h4 := queue_length_int r1 w1
  rw [q1, dropWhile_eq_nil_of_all (fun x hx => by simpa using hall x hx)] at h4
  simpa [Len] using h4.symm

/-- Witness of C8: five events accepted at time 0 with a window of 500 ms; one
second later `Len()` still reports 5. -/
theorem len_n_read_only_witness :
    (Len ⟨[0, 0, 0, 0, 0, 0, 0, 0, 0, 0], 0, 5, 5, 500000000⟩).1 = 5 ∧
    ∃ r1, Purge 1000000000 ⟨[0, 0, 0, 0, 0, 0, 0, 0, 0, 0], 0, 5, 5, 500000000⟩ = some r1 ∧
      (Len r1).1 = 0 :=
  ⟨by decide,
    ((len_n_read_only ⟨[0, 0, 0, 0, 0, 0, 0, 0, 0, 0], 0, 5, 5, 500000000⟩ 1000000000).2.2.2.2
      (by decide) (by decide)).2⟩

/-- C9 (clamping law).  For every limiter and every integer `x`, `N()` after
`SetN(x)` is `x` clamped into `[0, maxN]` with `maxN = len(log)`: 0 when `x < 0`,
`maxN` when `x > maxN`, and `x` otherwise.  With `maxN = 10`, `SetN(20)` gives 10
and `SetN(-10)` gives 0. -/
theorem setN_clamps (r : RateLimiter) (x : Int) :
    (N (SetN x r)).1 = clamp x 0 r.log.length ∧
    clamp x 0 r.log.length = max 0 (min x r.log.length) ∧
    (N (SetN 20 ⟨List.replicate 10 0, 0, 0, 10, 500000000⟩)).1 = 10 ∧
    (N (SetN (-10) ⟨List.replicate 10 0, 0, 0, 10, 500000000⟩)).1 = 0 := by
  refine ⟨?_, ?_, by decide, by decide⟩
  · unfold SetN clamp N
    split
    · rfl
    · split <;> rfl
  · unfold clamp
    split
    · omega
    · split <;> omega

/-- C10 (`SetN` and `ResetN` change only the limit).  In every state and for
every integer `x`, `SetN(x)` and `ResetN()` leave log, end, len and deltaT as
they are, so `Len()` and the queued time stamps are unchanged, also when the
new limit is below `Len()`; `ResetN()` sets the limit to the length of the
buffer, which in every state reached from `New maxN deltaT` is `maxN`. -/
theorem setN_resetN_frame (r : RateLimiter) (x : Int) :
    ((SetN x r).log = r.log ∧ (SetN x r).end_ = r.end_ ∧ (SetN x r).len = r.len ∧
      (SetN x r).deltaT = r.deltaT ∧ (Len (SetN x r)).1 = (Len r).1 ∧
      queue (SetN x r) = queue r) ∧
    ((ResetN r).log = r.log ∧ (ResetN r).end_ = r.end_ ∧ (ResetN r).len = r.len ∧
      (ResetN r).deltaT = r.deltaT ∧ (Len (ResetN r)).1 = (Len r).1 ∧
      queue (ResetN r) = queue r) ∧
    (N (ResetN r)).1 = r.log.length ∧
    (∀ (maxN deltaT : Int) (ops : List Op) (r0 : RateLimiter) (h : List Int),
      New maxN deltaT = some r0 → run ops (r0, []) = some (r, h) →
      (N (ResetN r)).1 = maxN) := by
  refine ⟨?_, ⟨rfl, rfl, rfl, rfl, rfl, rfl⟩, rfl, ?_⟩
  · unfold SetN
    split
    · exact ⟨rfl, rfl, rfl, rfl, rfl, rfl⟩
    · split <;> exact ⟨rfl, rfl, rfl, rfl, rfl, rfl⟩
  · intro maxN deltaT ops r0 h e0 e1
    have hl := run_log_length ops _ _ e1
    simp only at hl
    unfold New at e0
    split at e0
    · cases e0
    · cases e0
      simp only [List.length_replicate] at hl
      simp only [N, ResetN, hl]
      omega

/-- Witness of C10: `New(10, 500ms)`, seven events accepted, then `SetN(5)`:
the queue still holds 7 entries, and `ResetN()` brings `N()` back to 10. -/
theorem setN_resetN_frame_witness :
    run [Op.Accept 1, Op.Accept 2, Op.Accept 3, Op.Accept 4, Op.Accept 5, Op.Accept 6,
        Op.Accept 7, Op.SetN 5] (⟨List.replicate 10 0, 0, 0, 10, 500000000⟩, [])
      = some (⟨[1, 2, 3, 4, 5, 6, 7, 0, 0, 0], 0, 7, 5, 500000000⟩, [1, 2, 3, 4, 5, 6, 7]) ∧
    (Len ⟨[1, 2, 3, 4, 5, 6, 7, 0, 0, 0], 0, 7, 5, 500000000⟩).1 = 7 ∧
    (N (ResetN ⟨[1, 2, 3, 4, 5, 6, 7, 0, 0, 0], 0, 7, 5, 500000000⟩)).1 = 10 :=
  ⟨by decide, by decide,
    (setN_resetN_frame ⟨[1, 2, 3, 4, 5, 6, 7, 0, 0, 0], 0, 7, 5, 500000000⟩ 5).2.2.2
      10 500000000
      [Op.Accept 1, Op.Accept 2, Op.Accept 3, Op.Accept 4, Op.Accept 5, Op.Accept 6,
        Op.Accept 7, Op.SetN 5]
      ⟨List.replicate 10 0, 0, 0, 10, 500000000⟩ [1, 2, 3, 4, 5, 6, 7]
      (by decide) (by decide)⟩

/-- C11 (monotone limit change).  In a well-formed state, with `c` the number of
live entries left by purging at `t` and `L = clamp x 0 maxN` (`maxN = len(log)`),
`Accept` at `t` right after `SetN(x)` does not panic and returns true exactly
when `c < L`.  `SetN` itself discards nothing (the queue and `Len()` are
unchanged), and the call leaves the purged queue, with `t` appended when it is
accepted. -/
theorem monotone_limit_change (r : RateLimiter) (x t : Int) (hwf : WF r) :
    ∃ rp b r1, purge t r = some rp ∧ Accept t (SetN x r) = some (b, r1) ∧
      (b = true ↔ rp.len < clamp x 0 r.log.length) ∧
      rp.len = ((queue r).dropWhile (fun y => decide (y ≤ oldest t r.deltaT))).length ∧
      queue (SetN x r) = queue r ∧ (Len (SetN x r)).1 = (Len r).1 ∧
      queue r1 = (if b then queue rp ++ [t] else queue rp) := by
  obtain ⟨rp, ep, wp, qp, -⟩ := purge_spec t r hwf
  obtain ⟨rq, -, wq, cq, -, -, qq, hcase⟩ := accept_cases t (SetN x r) (wf_SetN x r hwf)
  have hqs : queue (SetN x r) = queue r := by rw [SetN_eq]; rfl
  have hds : (SetN x r).deltaT = r.deltaT := by rw [SetN_eq]
  have hcs : (SetN x r).cap = clamp x 0 r.log.length := by rw [SetN_eq]
  rw [hqs, hds, ← qp] at qq
  have hlen : rq.len = rp.len := by
    have h1 := queue_length_int rq wq
    have h2 := queue_length_int rp wp
    rw [qq] at h1
    omega
  have hlp : rp.len = ((queue r).dropWhile
      (fun y => decide (y ≤ oldest t r.deltaT))).length := by
    rw [← qp]; exact (queue_length_int rp wp).symm
  rw [hcs] at cq
  rcases hcase with ⟨hge, ha⟩ | ⟨hlt, r2, ha, -, q2, -⟩
  · refine ⟨rp, false, rq, ep, ha, ?_, hlp, hqs, by rw [SetN_eq]; rfl, by simp [qq]⟩
    constructor
    · intro hb; cases hb
    · intro hlt; omega
  · refine ⟨rp, true, r2, ep, ha, ?_, hlp, hqs, by rw [SetN_eq]; rfl, by simp [q2, qq]⟩
    constructor
    · intro _; omega
    · intro _; rfl

/-- Witness of C11: three live entries in a buffer of 10; after `SetN(4)` the
next `Accept` succeeds, and the state is well formed. -/
theorem monotone_limit_change_witness :
    WF ⟨[1, 2, 3, 0, 0, 0, 0, 0, 0, 0], 0, 3, 10, 500000000⟩ ∧
    Accept 4 (SetN 4 ⟨[1, 2, 3, 0, 0, 0, 0, 0, 0, 0], 0, 3, 10, 500000000⟩)
      = some (true, ⟨[1, 2, 3, 4, 0, 0, 0, 0, 0, 0], 0, 4, 4, 500000000⟩) ∧
    Accept 4 (SetN 3 ⟨[1, 2, 3, 0, 0, 0, 0, 0, 0, 0], 0, 3, 10, 500000000⟩)
      = some (false, ⟨[1, 2, 3, 0, 0, 0, 0, 0, 0, 0], 0, 3, 3, 500000000⟩) ∧
    ∃ rp b r1, purge 4 ⟨[1, 2, 3, 0, 0, 0, 0, 0, 0, 0], 0, 3, 10, 500000000⟩ = some rp ∧
      Accept 4 (SetN 4 ⟨[1, 2, 3, 0, 0, 0, 0, 0, 0, 0], 0, 3, 10, 500000000⟩) = some (b, r1) ∧
      (b = true ↔ rp.len < clamp 4 0 (10 : Nat)) ∧
      rp.len = ((queue ⟨[1, 2, 3, 0, 0, 0, 0, 0, 0, 0], 0, 3, 10, 500000000⟩).dropWhile
        (fun y => decide (y ≤ oldest 4 500000000))).length ∧
      queue (SetN 4 ⟨[1, 2, 3, 0, 0, 0, 0, 0, 0, 0], 0, 3, 10, 500000000⟩)
        = queue ⟨[1, 2, 3, 0, 0, 0, 0, 0, 0, 0], 0, 3, 10, 500000000⟩ ∧
      (Len (SetN 4 ⟨[1, 2, 3, 0, 0, 0, 0, 0, 0, 0], 0, 3, 10, 500000000⟩)).1
        = (Len ⟨[1, 2, 3, 0, 0, 0, 0, 0, 0, 0], 0, 3, 10, 500000000⟩).1 ∧
      queue r1 = (if b then queue rp ++ [4] else queue rp) :=
  ⟨by decide, by decide, by decide,
    monotone_limit_change ⟨[1, 2, 3, 0, 0, 0, 0, 0, 0, 0], 0, 3, 10, 500000000⟩ 4 4
      (by decide)⟩

/-- C12 (`Reset` empties the queue and is idempotent).  In every state `Reset()`
sets the count to 0 and changes no other field, so `Len()` is 0 and the queue is
empty afterwards, `N()` and the buffer are unchanged, and two `Reset()` calls in
a row leave the same state as one. -/
theorem reset_idempotent (r : RateLimiter) :
    (Reset r).len = 0 ∧ (Len (Reset r)).1 = 0 ∧ queue (Reset r) = [] ∧
    (Reset r).log = r.log ∧ (Reset r).end_ = r.end_ ∧ (Reset r).cap = r.cap ∧
    (Reset r).deltaT = r.deltaT ∧ (N (Reset r)).1 = (N r).1 ∧
    (Reset r).log.length = r.log.length ∧ Reset (Reset r) = Reset r := by
  refine ⟨rfl, rfl, ?_, rfl, rfl, rfl, rfl, rfl, rfl, rfl⟩
  simp [queue, Reset]

/-- C13 (capacity zero rejects everything).  `New(0, deltaT)` succeeds for every
`deltaT`, and no public call changes the resulting state or panics: every
sequence of public calls, at any clock readings and with any `SetN` arguments,
runs to that same state with nothing admitted.  In that state every `Accept`
returns false, every `Reject` returns true, `Purge` does nothing, and `Len()`
and `N()` return 0. -/
theorem capacity_zero_rejects (deltaT : Int) (ops : List Op) (t x : Int) :
    ∃ r0, New 0 deltaT = some r0 ∧ run ops (r0, []) = some (r0, []) ∧
      Accept t r0 = some (false, r0) ∧ Reject t r0 = some (true, r0) ∧
      Purge t r0 = some r0 ∧ (Len r0).1 = 0 ∧ (N r0).1 = 0 ∧
      (N (SetN x r0)).1 = 0 ∧ (N (ResetN r0)).1 = 0 ∧
      SetN x r0 = r0 ∧ ResetN r0 = r0 ∧ Reset r0 = r0 := by
  have hs := step_zero deltaT (Op.SetN x)
  simp only [stepOp, Option.some.injEq, Prod.mk.injEq, and_true] at hs
  refine ⟨⟨[], 0, 0, 0, deltaT⟩, rfl, run_zero deltaT ops, ?_, ?_, ?_, rfl, rfl, ?_, rfl,
    hs, rfl, rfl⟩
  · simp [Accept, accept, purge, purgeLoop]
  · simp [Reject, accept, purge, purgeLoop]
  · simp [Purge, purge, purgeLoop]
  · rw [hs]; rfl

/-- C14 as stated fails when `t - deltaT` overflows: `New(1, deltaT)` with the
negative window `deltaT = -7423372036854775807` admits an event at the clock
reading `T = 1800000000000000000`; at `T + 1` the threshold wraps around to
`-2^63`, so `Purge` removes nothing and `Accept`, issued while the limit is 1,
returns false (`Reject` returns true). -/
theorem degenerate_window_counterexample :
    New 1 (-7423372036854775807) = some ⟨[0], 0, 0, 1, -7423372036854775807⟩ ∧
    (-7423372036854775807 : Int) ≤ 0 ∧
    (clockReadings [Op.Accept 1800000000000000000] ++ [1800000000000000001]).Pairwise
      (· ≤ ·) ∧
    run [Op.Accept 1800000000000000000] (⟨[0], 0, 0, 1, -7423372036854775807⟩, [])
      = some (⟨[1800000000000000000], 0, 1, 1, -7423372036854775807⟩,
              [1800000000000000000]) ∧
    oldest 1800000000000000001 (-7423372036854775807) = -(2 ^ 63) ∧
    Purge 1800000000000000001 ⟨[1800000000000000000], 0, 1, 1, -7423372036854775807⟩
      = some ⟨[1800000000000000000], 0, 1, 1, -7423372036854775807⟩ ∧
    (N ⟨[1800000000000000000], 0, 1, 1, -7423372036854775807⟩).1 = 1 ∧
    Accept 1800000000000000001 ⟨[1800000000000000000], 0, 1, 1, -7423372036854775807⟩
      = some (false, ⟨[1800000000000000000], 0, 1, 1, -7423372036854775807⟩) ∧
    Reject 1800000000000000001 ⟨[1800000000000000000], 0, 1, 1, -7423372036854775807⟩
      = some (true, ⟨[1800000000000000000], 0, 1, 1, -7423372036854775807⟩) := by
  decide

/-- C14 amended (degenerate window).  For a limiter built by `New maxN deltaT`
with `0 ≤ maxN` and `deltaT ≤ 0` and any sequence of public calls at
non-decreasing clock readings for which `t - deltaT` does not overflow: the run
does not panic, a purge at the next reading `t` removes every queued entry, and
when the limit is `≥ 1` `Accept` at `t` returns true (`Reject` returns false)
and `Len()` right after it is 1. -/
theorem degenerate_window (maxN deltaT : Int) (ops : List Op) (t : Int) (hN : 0 ≤ maxN)
    (hd : deltaT ≤ 0) (hmono : (clockReadings ops ++ [t]).Pairwise (· ≤ ·))
    (hov : ∀ u ∈ clockReadings ops ++ [t], NoOverflow u deltaT) :
    ∃ r0 r h, New maxN deltaT = some r0 ∧ run ops (r0, []) = some (r, h) ∧
      (∃ rp, Purge t r = some rp ∧ (Len rp).1 = 0) ∧
      (1 ≤ (N r).1 → ∃ r1, Accept t r = some (true, r1) ∧ Reject t r = some (false, r1) ∧
        (Len r1).1 = 1) := by
  obtain ⟨r0, r, h, e0, e1, hinv⟩ := run_from_new ops t hN hmono hov
  obtain ⟨w, d, -, ⟨dr, e, -⟩, hs, -⟩ := hinv
  simp only at w d e hs
  have hstale : ∀ x ∈ queue r, x ≤ oldest t r.deltaT := by
    intro x hx
    rw [d, oldest_eq_sub t deltaT (hov t (by simp))]
    have := hs x (by rw [e]; exact List.mem_append_right _ hx)
    omega
  refine ⟨r0, r, h, e0, e1, ?_, fun hn => ?_⟩
  · obtain ⟨rp, ep, wp, qp, -⟩ := purge_spec t r w
    refine ⟨rp, ep, ?_⟩
    have h4 := queue_length_int rp wp
    rw [qp, dropWhile_eq_nil_of_all (fun x hx => by simpa using hstale x hx)] at h4
    simpa [Len] using h4.symm
  · obtain ⟨rp, r1, -, -, ha, h1, -⟩ := accept_stale t r w hn hstale
    exact ⟨r1, ha, by simp only [Reject, ha, Bool.not_true], h1⟩

/-- Witness of C14: `New(2, 0)` with two events accepted at the reading 5; at
the same reading both are stale and the next `Accept` leaves `Len() = 1`. -/
theorem degenerate_window_witness :
    (clockReadings [Op.Accept 5, Op.Accept 5] ++ [5]).Pairwise (· ≤ ·) ∧
    run [Op.Accept 5, Op.Accept 5] (⟨[0, 0], 0, 0, 2, 0⟩, []) = some (⟨[5, 5], 1, 1, 2, 0⟩, [5, 5]) ∧
    ∃ r0 r h, New 2 0 = some r0 ∧ run [Op.Accept 5, Op.Accept 5] (r0, []) = some (r, h) ∧
      (∃ rp, Purge 5 r = some rp ∧ (Len rp).1 = 0) ∧
      (1 ≤ (N r).1 → ∃ r1, Accept 5 r = some (true, r1) ∧ Reject 5 r = some (false, r1) ∧
        (Len r1).1 = 1) :=
  ⟨by decide, by decide,
    degenerate_window 2 0 [Op.Accept 5, Op.Accept 5] 5 (by decide) (by decide) (by decide)
      (by decide)⟩

/-- C15 (bounds invariant).  Every sequence of public calls on a limiter built
by `New maxN deltaT` with `0 ≤ maxN`, at arbitrary clock readings and with
arbitrary `SetN` arguments, runs without panic to a state with
`0 ≤ len ≤ maxN`, `0 ≤ cap ≤ maxN` and `len(log) = maxN`. -/
theorem bounds_invariant (maxN deltaT : Int) (ops : List Op) (hN : 0 ≤ maxN) :
    ∃ r0 r h, New maxN deltaT = some r0 ∧ run ops (r0, []) = some (r, h) ∧
      0 ≤ r.len ∧ r.len ≤ maxN ∧ 0 ≤ r.cap ∧ r.cap ≤ maxN ∧ (r.log.length : Int) = maxN := by
  obtain ⟨r0, e0, w0, l0, -⟩ := new_wf maxN deltaT hN
  obtain ⟨s1, e1, w1, l1, -⟩ := run_wf ops (r0, []) w0
  obtain ⟨a0, a1, a2, a3, -⟩ := w1
  simp only at l1
  refine ⟨r0, s1.1, s1.2, e0, e1, a0, ?_, a2, ?_, ?_⟩ <;> omega

/-- Witness of C15: a run with a backward clock and out-of-range `SetN`
arguments on `New(2, 10)`. -/
theorem bounds_invariant_witness :
    run [Op.Accept 100, Op.SetN 7, Op.Accept 100, Op.Accept 200, Op.Accept 105, Op.SetN (-3),
        Op.Reject 90, Op.ResetN] (⟨[0, 0], 0, 0, 2, 10⟩, [])
      = some (⟨[200, 105], 0, 2, 2, 10⟩, [100, 100, 200, 105]) ∧
    ∃ r0 r h, New 2 10 = some r0 ∧
      run [Op.Accept 100, Op.SetN 7, Op.Accept 100, Op.Accept 200, Op.Accept 105, Op.SetN (-3),
        Op.Reject 90, Op.ResetN] (r0, []) = some (r, h) ∧
      0 ≤ r.len ∧ r.len ≤ 2 ∧ 0 ≤ r.cap ∧ r.cap ≤ 2 ∧ (r.log.length : Int) = 2 :=
  ⟨by decide, bounds_invariant 2 10
    [Op.Accept 100, Op.SetN 7, Op.Accept 100, Op.Accept 200, Op.Accept 105, Op.SetN (-3),
      Op.Reject 90, Op.ResetN] (by decide)⟩

/-- C16 (chronological-order invariant).  Every sequence of public calls on a
limiter built by `New maxN deltaT` with `0 ≤ maxN`, at non-decreasing clock
readings, runs without panic to a state whose live entries
`log[(end + i) % len(log)]`, `i = 0 .. len - 1`, are non-decreasing in `i`. -/
theorem chronological_order (maxN deltaT : Int) (ops : List Op) (hN : 0 ≤ maxN)
    (hmono : (clockReadings ops).Pairwise (· ≤ ·)) :
    ∃ r0 r h, New maxN deltaT = some r0 ∧ run ops (r0, []) = some (r, h) ∧
      (queue r).Pairwise (· ≤ ·) := by
  obtain ⟨r0, e0, w0, -, -, hl0, -⟩ := new_wf maxN deltaT hN
  have hq0 : queue r0 = [] := by
    apply List.eq_nil_of_length_eq_zero; rw [queue_length]; omega
  have hc0 : ∀ lo, Chron lo (r0, []) := fun lo =>
    ⟨w0, ⟨[], by simp [hq0]⟩, (fun x hx => by cases hx), List.Pairwise.nil⟩
  have hrun : ∃ s1 hi, run ops (r0, []) = some s1 ∧ Chron hi s1 := by
    cases hc : clockReadings ops with
    | nil =>
      exact chron_run ops 0 (r0, []) (hc0 0) hmono (by rw [hc]; intro u hu; cases hu)
    | cons a l =>
      refine chron_run ops a (r0, []) (hc0 a) hmono ?_
      rw [hc] at hmono ⊢
      intro u hu
      rcases List.mem_cons.1 hu with rfl | hu
      · exact le_refl _
      · exact (List.pairwise_cons.1 hmono).1 u hu
  obtain ⟨s1, hi, e1, -, ⟨d, e⟩, -, hp⟩ := hrun
  refine ⟨r0, s1.1, s1.2, e0, e1, ?_⟩
  rw [e] at hp
  exact (List.pairwise_append.1 hp).2.1

/-- Witness of C16: `New(2, 10)` with events at 100, 105 and 111; the
queue wraps around the end of the buffer and reads `[105, 111]`. -/
theorem chronological_order_witness :
    run [Op.Accept 100, Op.Accept 105, Op.Accept 111, Op.Reject 112, Op.Purge 113]
        (⟨[0, 0], 0, 0, 2, 10⟩, [])
      = some (⟨[111, 105], 1, 2, 2, 10⟩, [100, 105, 111]) ∧
    ∃ r0 r h, New 2 10 = some r0 ∧
      run [Op.Accept 100, Op.Accept 105, Op.Accept 111, Op.Reject 112, Op.Purge 113] (r0, [])
        = some (r, h) ∧
      (queue r).Pairwise (· ≤ ·) :=
  ⟨by decide, chronological_order 2 10
    [Op.Accept 100, Op.Accept 105, Op.Accept 111, Op.Reject 112, Op.Purge 113]
    (by decide) (by decide)⟩

/-- C17 (totality).  Every sequence of public calls on a limiter built by
`New maxN deltaT` with `0 ≤ maxN`, for every `deltaT`, at arbitrary clock
readings and with arbitrary `SetN` arguments, runs without panic, and the state
`r` it reaches has `0 ≤ end < len(log)` whenever `len(log) > 0`.  In that state
`purge` and `accept` at any time `t` do not panic; when the queue is not empty
the read `r.log[r.end]` is in range and `(r.end + 1) % len(r.log)` has a nonzero
divisor and yields an index of the buffer; when the count is below the limit the
write index `(r.end + r.len) % len(r.log)` has a nonzero divisor and is in
range. -/
theorem totality (maxN deltaT : Int) (ops : List Op) (t : Int) (hN : 0 ≤ maxN) :
    ∃ r0 r h, New maxN deltaT = some r0 ∧ run ops (r0, []) = some (r, h) ∧
      (0 < r.log.length → 0 ≤ r.end_ ∧ r.end_ < r.log.length) ∧
      (∃ rp, purge t r = some rp) ∧ (∃ b r1, accept t r = some (b, r1)) ∧
      (0 < r.len → (r.log.length : Int) ≠ 0 ∧ (∃ v, sliceGet r.log r.end_ = some v) ∧
        ∃ e, goMod (r.end_ + 1) r.log.length = some e ∧ 0 ≤ e ∧ e < r.log.length) ∧
      (r.len < r.cap → (r.log.length : Int) ≠ 0 ∧
        ∃ j l, goMod (r.end_ + r.len) r.log.length = some j ∧ 0 ≤ j ∧ j < r.log.length ∧
          sliceSet r.log j t = some l) := by
  obtain ⟨r0, e0, w0, -⟩ := new_wf maxN deltaT hN
  obtain ⟨s1, e1, w1, -⟩ := run_wf ops (r0, []) w0
  obtain ⟨rp, ep, -⟩ := purge_spec t s1.1 w1
  obtain ⟨b, r1, ea, -⟩ := accept_spec t s1.1 w1
  refine ⟨r0, s1.1, s1.2, e0, e1, w1.2.2.2.2, ⟨rp, ep⟩, ⟨b, r1, ea⟩, fun hl => ?_, fun hl => ?_⟩
  · obtain ⟨x, hx, hm, hwf, -⟩ := queue_pop s1.1 w1 hl
    have hpos : (0 : Int) < s1.1.log.length := by
      have := w1.2.1; omega
    exact ⟨by omega, ⟨x, hx⟩, _, hm, Int.emod_nonneg _ (by omega), Int.emod_lt_of_pos _ hpos⟩
  · have hlt : s1.1.len < s1.1.log.length := by
      have := w1.2.2.2.1; omega
    have hpos : (0 : Int) < s1.1.log.length := by
      have := w1.1; omega
    obtain ⟨l, g1, g2, -⟩ := queue_push s1.1 t w1 hlt
    exact ⟨by omega, _, l, g1, Int.emod_nonneg _ (by omega), Int.emod_lt_of_pos _ hpos, g2⟩

/-- Witness of C17: a run on `New(2, -5)` with a backward clock and
out-of-range `SetN` arguments. -/
theorem totality_witness :
    ∃ r0 r h, New 2 (-5) = some r0 ∧
      run [Op.Accept 100, Op.SetN 9, Op.Accept 50, Op.Purge 20, Op.SetN (-1), Op.Reject 70]
        (r0, []) = some (r, h) ∧
      (0 < r.log.length → 0 ≤ r.end_ ∧ r.end_ < r.log.length) ∧
      (∃ rp, purge 60 r = some rp) ∧ (∃ b r1, accept 60 r = some (b, r1)) ∧
      (0 < r.len → (r.log.length : Int) ≠ 0 ∧ (∃ v, sliceGet r.log r.end_ = some v) ∧
        ∃ e, goMod (r.end_ + 1) r.log.length = some e ∧ 0 ≤ e ∧ e < r.log.length) ∧
      (r.len < r.cap → (r.log.length : Int) ≠ 0 ∧
        ∃ j l, goMod (r.end_ + r.len) r.log.length = some j ∧ 0 ≤ j ∧ j < r.log.length ∧
          sliceSet r.log j 60 = some l) :=
  totality 2 (-5) [Op.Accept 100, Op.SetN 9, Op.Accept 50, Op.Purge 20, Op.SetN (-1),
    Op.Reject 70] 60 (by decide)

/-- C18 as stated fails when `t - deltaT` overflows.  `New(1, deltaT)` with the
negative window `deltaT = -7423372036854775807` and one `Accept` at
`T = 1800000000000000000` reaches a well-formed state with queue `[T]`.  At
`t = T + 1` the longest leading run of live entries `≤ t - deltaT = 2^63` has
length 1, but the threshold computed by `purge` wraps around to `-2^63`: the
loop body is executed 0 times, after one read of the buffer, and the count
stays 1. -/
theorem purge_bounded_counterexample :
    New 1 (-7423372036854775807) = some ⟨[0], 0, 0, 1, -7423372036854775807⟩ ∧
    run [Op.Accept 1800000000000000000] (⟨[0], 0, 0, 1, -7423372036854775807⟩, [])
      = some (⟨[1800000000000000000], 0, 1, 1, -7423372036854775807⟩, [1800000000000000000]) ∧
    WF ⟨[1800000000000000000], 0, 1, 1, -7423372036854775807⟩ ∧
    ((queue ⟨[1800000000000000000], 0, 1, 1, -7423372036854775807⟩).takeWhile (fun x => decide (x ≤ 1800000000000000001 - (-7423372036854775807)))).length = 1 ∧
    oldest 1800000000000000001 (-7423372036854775807) = -(2 ^ 63) ∧
    purgeTrace (oldest 1800000000000000001 (-7423372036854775807)) 1 ⟨[1800000000000000000], 0, 1, 1, -7423372036854775807⟩ = some (⟨[1800000000000000000], 0, 1, 1, -7423372036854775807⟩, 0, [0]) ∧
    purge 1800000000000000001 ⟨[1800000000000000000], 0, 1, 1, -7423372036854775807⟩ = some ⟨[1800000000000000000], 0, 1, 1, -7423372036854775807⟩ ∧
    (Len ⟨[1800000000000000000], 0, 1, 1, -7423372036854775807⟩).1 = 1 := by
  decide

/-- C18 amended (purge is bounded).  In a well-formed state and at a time `t`
for which `t - deltaT` does not overflow, the loop of `purge t` terminates
without panic after exactly `k` executions of its body, where `k` is the count
before minus the count after and also the length of the longest leading run of
live entries that are `≤ t - deltaT`; `k ≤ count ≤ len(log)`.  The loop
condition reads the buffer at most `k + 1` times, each time at the slot of a
live entry, and iterations beyond the first `r.len` are never used.
`accept t` terminates as well. -/
theorem purge_bounded (r : RateLimiter) (t : Int) (hwf : WF r)
    (hov : NoOverflow t r.deltaT) :
    ∃ r1 k idx, purgeTrace (oldest t r.deltaT) r.len.toNat r = some (r1, k, idx) ∧
      purge t r = some r1 ∧ (k : Int) = r.len - r1.len ∧
      k = ((queue r).takeWhile (fun x => decide (x ≤ t - r.deltaT))).length ∧
      (k : Int) ≤ r.len ∧ r.len ≤ r.log.length ∧ idx.length ≤ k + 1 ∧
      (∀ i ∈ idx, ∃ j : Nat, (j : Int) < r.len ∧ i = (r.end_ + j) % r.log.length) ∧
      (∀ fuel, r.len.toNat ≤ fuel → purgeLoop (oldest t r.deltaT) fuel r = purge t r) ∧
      (∃ b r2, accept t r = some (b, r2)) := by
  obtain ⟨r1, k, idx, e1, e2, hk, hlen, hidx⟩ :=
    purgeTrace_spec (oldest t r.deltaT) r.len.toNat r hwf (le_refl _)
  obtain ⟨rp, ep, wp, qp, -⟩ := purge_spec t r hwf
  have hrp : rp = r1 := by
    have : purge t r = some r1 := e2
    rw [ep] at this
    exact Option.some.inj this
  subst hrp
  obtain ⟨b, r2, ea, -⟩ := accept_spec t r hwf
  rw [oldest_eq_sub t r.deltaT hov] at qp
  have hsplit := congrArg List.length (List.takeWhile_append_dropWhile
    (fun x => decide (x ≤ t - r.deltaT)) (queue r))
  rw [List.length_append, ← qp] at hsplit
  have h3 := queue_length_int r hwf
  have h4 := queue_length_int rp wp
  have h5 := wp.1
  refine ⟨rp, k, idx, e1, ep, hk, by omega, by omega, hwf.2.1, hlen, hidx,
    fun fuel hf => purgeLoop_fuel _ fuel r hf, ⟨b, r2, ea⟩⟩

/-- Witness of C18: a queue `[100, 110, 120]` that wraps around the end of the
buffer, purged at 126 with window 15: two executions of the loop body, and
three reads of the buffer, at the indices 1, 2 and 0. -/
theorem purge_bounded_witness :
    WF ⟨[120, 100, 110], 1, 3, 3, 15⟩ ∧ NoOverflow 126 15 ∧
    purgeTrace (oldest 126 15) 3 ⟨[120, 100, 110], 1, 3, 3, 15⟩
      = some (⟨[120, 100, 110], 0, 1, 3, 15⟩, 2, [1, 2, 0]) ∧
    ∃ r1 k idx, purgeTrace (oldest 126 15) (3 : Int).toNat ⟨[120, 100, 110], 1, 3, 3, 15⟩
        = some (r1, k, idx) ∧
      purge 126 ⟨[120, 100, 110], 1, 3, 3, 15⟩ = some r1 ∧ (k : Int) = 3 - r1.len ∧
      k = ((queue ⟨[120, 100, 110], 1, 3, 3, 15⟩).takeWhile
        (fun x => decide (x ≤ 126 - 15))).length ∧
      (k : Int) ≤ 3 ∧ (3 : Int) ≤ (3 : Nat) ∧ idx.length ≤ k + 1 ∧
      (∀ i ∈ idx, ∃ j : Nat, (j : Int) < 3 ∧ i = (1 + j) % (3 : Nat)) ∧
      (∀ fuel, (3 : Int).toNat ≤ fuel → purgeLoop (oldest 126 15) fuel
        ⟨[120, 100, 110], 1, 3, 3, 15⟩ = purge 126 ⟨[120, 100, 110], 1, 3, 3, 15⟩) ∧
      (∃ b r2, accept 126 ⟨[120, 100, 110], 1, 3, 3, 15⟩ = some (b, r2)) :=
  ⟨by decide, by decide, by decide,
    purge_bounded ⟨[120, 100, 110], 1, 3, 3, 15⟩ 126 (by decide) (by decide)⟩

/-- C19 (no guard against a backward clock).  On `New(2, 10)` the calls of
`Accept` at the clock readings 100, 100, 200, 105, which are not
non-decreasing, all return true; the queue ends as `[200, 105]`, which is not
chronologically ordered, and the three admitted time stamps 100, 100, 105 lie
in the window `(95, 105]` although the limit is 2. -/
theorem backward_clock_unguarded :
    New 2 10 = some ⟨[0, 0], 0, 0, 2, 10⟩ ∧
    ¬ ([100, 100, 200, 105] : List Int).Pairwise (· ≤ ·) ∧
    acceptAll [100, 100, 200, 105] ⟨[0, 0], 0, 0, 2, 10⟩
      = some ([true, true, true, true], ⟨[200, 105], 0, 2, 2, 10⟩) ∧
    run [Op.Accept 100, Op.Accept 100, Op.Accept 200, Op.Accept 105] (⟨[0, 0], 0, 0, 2, 10⟩, [])
      = some (⟨[200, 105], 0, 2, 2, 10⟩, [100, 100, 200, 105]) ∧
    queue ⟨[200, 105], 0, 2, 2, 10⟩ = [200, 105] ∧
    ¬ (queue ⟨[200, 105], 0, 2, 2, 10⟩).Pairwise (· ≤ ·) ∧
    countWindow [100, 100, 200, 105] (105 - 10) 105 = 3 ∧
    (N ⟨[200, 105], 0, 2, 2, 10⟩).1 = 2 := by
  decide

/-- C20 (`Reset` forgets admissions that are still inside the window).  On
`New(1, 10)`, `Accept` at 100, `Reset`, `Accept` at 100 both return true: two
admissions in the window `(90, 100]` under the limit 1.  The sequence of the
test on `New(10, 500ms)` (ten events accepted and one rejected, `Reject`
500 ms later, `Reset`, `SetN(5)`, five more `Accept` calls) has its last
`Accept` return true with 6 admissions since construction in the trailing
500 ms, under the limit 5. -/
theorem reset_forgets_admissions :
    New 1 10 = some ⟨[0], 0, 0, 1, 10⟩ ∧
    runAll [Op.Accept 100, Op.Reset] (⟨[0], 0, 0, 1, 10⟩, [])
      = some (⟨[100], 0, 0, 1, 10⟩, [100]) ∧
    (clockReadings [Op.Accept 100, Op.Reset] ++ [100]).Pairwise (· ≤ ·) ∧
    Accept 100 ⟨[100], 0, 0, 1, 10⟩ = some (true, ⟨[100], 0, 1, 1, 10⟩) ∧
    countWindow ([100] ++ [100]) (100 - 10) 100 = 2 ∧
    (N ⟨[100], 0, 0, 1, 10⟩).1 = 1 ∧
    New 10 500000000 = some ⟨[0, 0, 0, 0, 0, 0, 0, 0, 0, 0], 0, 0, 10, 500000000⟩ ∧
    runAll [Op.Accept 1, Op.Accept 2, Op.Accept 3, Op.Accept 4, Op.Accept 5, Op.Accept 6,
        Op.Accept 7, Op.Accept 8, Op.Accept 9, Op.Accept 10, Op.Accept 11, Op.Len,
        Op.Reject 500000011, Op.Len, Op.Reset, Op.Len, Op.N, Op.SetN 5,
        Op.Accept 500000012, Op.Accept 500000013, Op.Accept 500000014, Op.Accept 500000015]
        (⟨[0, 0, 0, 0, 0, 0, 0, 0, 0, 0], 0, 0, 10, 500000000⟩, [])
      = some (⟨[500000012, 500000013, 500000014, 500000015, 5, 6, 7, 8, 9, 10],
                0, 4, 5, 500000000⟩,
              [1, 2, 3, 4, 5, 6, 7, 8, 9, 10, 500000011, 500000012, 500000013, 500000014,
                500000015]) ∧
    Accept 500000016
        ⟨[500000012, 500000013, 500000014, 500000015, 5, 6, 7, 8, 9, 10],
          0, 4, 5, 500000000⟩
      = some (true, ⟨[500000012, 500000013, 500000014, 500000015, 500000016, 6, 7, 8, 9, 10],
          0, 5, 5, 500000000⟩) ∧
    countWindow ([1, 2, 3, 4, 5, 6, 7, 8, 9, 10, 500000011, 500000012, 500000013, 500000014,
        500000015] ++ [500000016]) (500000016 - 500000000) 500000016 = 6 := by
  decide

end Ratelimiter
